import Mathlib

/-!
Verification development for the relic-randomizer core (`src/util.js`):
the concurrent placement-search orchestrator (`randomizeRelics`), the
solution minimizer (`minifySolution`, `pruneSubsets`, `collapseSolution`)
and the renderer (`renderNode`).

The JavaScript source is shallowly embedded: objects become structures or
inductives, in-place mutation becomes explicit state passing, and the
worker-message event handler becomes a step function from orchestrator
state and an incoming message to the next state plus the list of emitted
actions.  JavaScript `Set`s are modelled as duplicate-free lists in
insertion order; floating-point averages are modelled as exact rationals.
-/

namespace SotN

/-- A JavaScript value stored under the `error` key of a worker result.
The source distinguishes booleans (`typeof(result.error) !== 'boolean'`,
line 2897) from other values, and tests truthiness (`if (result.error)`,
line 2927), so the model keeps exactly those observations: the two
booleans, and a non-boolean error object carrying `name` and `message`. -/
inductive JsError : Type where
  | boolTrue : JsError
  | boolFalse : JsError
  | obj (name message : String) : JsError
deriving DecidableEq, Repr

/-- JavaScript truthiness of an `error` value: `false` is the only falsy
inhabitant of the model. -/
def JsError.truthy : JsError → Bool
  | .boolFalse => false
  | _ => true

/-- Whether `typeof(value) === 'boolean'` holds for the `error` value. -/
def JsError.isBoolean : JsError → Bool
  | .boolTrue => true
  | .boolFalse => true
  | .obj _ _ => false

/-- A parsed worker reply as observed by `randomizeRelics`.  `error = none`
models a result object with no `error` key (`'error' in result` false);
`nonce = none` models a reply that carries no `nonce` key, in which case a
JavaScript `<` comparison against it is `false`.  `payload` stands for the
remaining fields of the result (the assignment and proof data), which the
orchestrator forwards untouched; it only serves to tell results apart. -/
structure WResult : Type where
  error : Option JsError := none
  done : Bool := false
  nonce : Option Nat := none
  payload : Nat := 0
deriving DecidableEq, Repr

/-- `result.error` is truthy (the test on line 2927 of the source). -/
def WResult.errTruthy (r : WResult) : Bool :=
  match r.error with
  | some e => e.truthy
  | none => false

/-- JavaScript `a < b` on two optionally-present numbers: comparison with
`undefined` yields `NaN` on either side and hence `false`. -/
def jsLtOpt : Option Nat → Option Nat → Bool
  | some a, some b => decide (a < b)
  | _, _ => false

/-- The body of the `results.reduce` callback in `randomizeRelics`
(source lines 2918-2926).  The `!candidate` guard of the source can never
fire in the model because every modelled result is a truthy object, so the
first branch is exactly `'error' in candidate`. -/
def randomizeRelicsReducer (candidate result : WResult) : WResult :=
  if candidate.error.isSome then result
  else if result.error.isSome || jsLtOpt candidate.nonce result.nonce then candidate
  else result

/-- `results.reduce(...)` with no initial accumulator: the first element
seeds the fold; a JavaScript reduce over an empty array throws, modelled
as `none`. -/
def selectResult : List WResult → Option WResult
  | [] => none
  | r :: rs => some (rs.foldl randomizeRelicsReducer r)

/-- The continuation applied to the settled `Promise.all` results
(source lines 2917-2931): reduce to a single result, then throw
`result.error` when it is truthy, otherwise resolve with the result. -/
def randomizeRelicsResolve (results : List WResult) : Option (Except JsError WResult) :=
  (selectResult results).map (fun result =>
    match result.error with
    | some e => if e.truthy then Except.error e else Except.ok result
    | none => Except.ok result)

/-- `workerCountFromCores` (source lines 2999-3001):
`Math.max(Math.floor(3 * cores / 4), 1)`; `Nat` division is floor. -/
def workerCountFromCores (cores : Nat) : Nat :=
  max (3 * cores / 4) 1

/-! ### The worker-message event handler

`randomizeRelics` installs one `message` listener per worker (source lines
2891-2915).  The listener reads the shared mutable variables `done`,
`running` and `nonce` and reacts to a parsed worker reply by throwing,
resolving that worker's promise and posting a cancellation to that same
worker, or posting the next attempt request.  The handler is embedded as
a pure step function returning the updated shared state together with the
list of actions performed, in program order. -/

/-- Shared mutable state of the orchestrator closed over by every
worker's message listener. -/
structure OrchState : Type where
  done : Bool
  running : List Bool
  nonce : Nat
deriving DecidableEq, Repr

/-- An observable action performed by the message listener:
re-raising a worker error, resolving the worker's promise with a result,
posting a cancellation message to a worker, or posting the next attempt
request (carrying the nonce used) to a worker. -/
inductive OrchAction : Type where
  | throwErr (name message : String) : OrchAction
  | resolveResult (thread : Nat) (r : WResult) : OrchAction
  | cancelMsg (thread : Nat) : OrchAction
  | attemptMsg (thread : Nat) (nonce : Nat) : OrchAction
deriving DecidableEq, Repr

/-- The `message` listener for worker `thread` (source lines 2892-2913).
A truthy non-boolean `error` re-raises (lines 2897-2901); otherwise if the
search is already done or this reply reports done, the listener marks the
search done, resolves this worker's promise with the reply, marks the
worker not running, and posts a cancellation to this same worker — and to
no other worker (lines 2902-2909); otherwise it posts the next attempt
request, consuming the current nonce (lines 2910-2911 and 2874-2889). -/
def handleWorkerMessage (st : OrchState) (thread : Nat) (result : WResult) :
    OrchState × List OrchAction :=
  match result.error with
  | some e =>
    if e.truthy && !e.isBoolean then
      (st, [OrchAction.throwErr (errName e) (errMessage e)])
    else
      handleNoThrow st thread result
  | none => handleNoThrow st thread result
where
  errName : JsError → String
    | .obj n _ => n
    | _ => ""
  errMessage : JsError → String
    | .obj _ m => m
    | _ => ""
  handleNoThrow (st : OrchState) (thread : Nat) (result : WResult) :
      OrchState × List OrchAction :=
    if st.done || result.done then
      ({ st with done := true, running := st.running.set thread false },
       [OrchAction.resolveResult thread result, OrchAction.cancelMsg thread])
    else
      ({ st with nonce := st.nonce + 1 },
       [OrchAction.attemptMsg thread st.nonce])

/-! ### Lemmas about the result-selection fold -/

theorem jsLtOpt_asymm {x y : Option Nat} (h : jsLtOpt x y = true) :
    jsLtOpt y x = false := by
  cases x <;> cases y <;> simp_all [jsLtOpt]
  omega

theorem reducer_of_error {c : WResult} (r : WResult) (hc : c.error.isSome) :
    randomizeRelicsReducer c r = r := by
  simp [randomizeRelicsReducer, hc]

theorem reducer_clean {c : WResult} (r : WResult) (hc : c.error = none) :
    (randomizeRelicsReducer c r).error = none := by
  unfold randomizeRelicsReducer
  simp only [hc, Option.isSome_none, Bool.false_eq_true, if_false]
  split
  · exact hc
  · rename_i h
    rcases hr : r.error with _ | e
    · rfl
    · simp [hr] at h

theorem foldl_reducer_all_error (rs : List WResult) (c : WResult)
    (hc : c.error.isSome = true) (hrs : ∀ r ∈ rs, r.error.isSome = true) :
    (c :: rs).getLast? = some (rs.foldl randomizeRelicsReducer c) := by
  induction rs generalizing c with
  | nil => rfl
  | cons r rs ih =>
    rw [List.getLast?_cons_cons, List.foldl_cons,
      reducer_of_error r hc]
    exact ih r (hrs r (by simp)) (fun x hx => hrs x (by simp [hx]))

theorem foldl_reducer_clean (rs : List WResult) (c : WResult)
    (h : c.error = none ∨ ∃ r ∈ rs, r.error = none) :
    (rs.foldl randomizeRelicsReducer c).error = none := by
  induction rs generalizing c with
  | nil =>
    rcases h with h | ⟨r, hr, _⟩
    · exact h
    · exact absurd hr (List.not_mem_nil r)
  | cons r rs ih =>
    rw [List.foldl_cons]
    rcases h with h | ⟨x, hx, hxe⟩
    · exact ih _ (Or.inl (reducer_clean r h))
    · rcases List.mem_cons.mp hx with rfl | hx
      · refine ih _ (Or.inl ?_)
        rcases hc : c.error with _ | e
        · exact reducer_clean x hc
        · rw [reducer_of_error x (by simp [hc])]
          exact hxe
      · exact ih _ (Or.inr ⟨x, hx, hxe⟩)

theorem foldl_reducer_min (rs : List WResult) (c m : WResult)
    (hclean : c.error = none ∧ ∀ r ∈ rs, r.error = none)
    (hmem : m ∈ c :: rs)
    (hmin : ∀ r ∈ c :: rs, r ≠ m → jsLtOpt m.nonce r.nonce = true) :
    rs.foldl randomizeRelicsReducer c = m := by
  induction rs generalizing c with
  | nil =>
    rcases List.mem_cons.mp hmem with rfl | hm
    · rfl
    · exact absurd hm (List.not_mem_nil m)
  | cons r rs ih =>
    have hcc : c.error = none := hclean.1
    have hrc : r.error = none := hclean.2 r (by simp)
    have hstep : randomizeRelicsReducer c r =
        if jsLtOpt c.nonce r.nonce then c else r := by
      simp [randomizeRelicsReducer, hcc, hrc]
    rw [List.foldl_cons]
    have hsub : randomizeRelicsReducer c r = c ∨ randomizeRelicsReducer c r = r := by
      rw [hstep]; split <;> simp
    -- the new candidate is clean and the tail is clean
    have hclean' : (randomizeRelicsReducer c r).error = none ∧
        ∀ x ∈ rs, x.error = none := by
      refine ⟨?_, fun x hx => hclean.2 x (by simp [hx])⟩
      rcases hsub with h | h <;> rw [h] <;> assumption
    -- the minimum hypothesis transfers
    have hmin' : ∀ x ∈ randomizeRelicsReducer c r :: rs, x ≠ m →
        jsLtOpt m.nonce x.nonce = true := by
      intro x hx hxm
      rcases List.mem_cons.mp hx with rfl | hx
      · rcases hsub with h | h <;> rw [h] <;> rw [h] at hxm
        · exact hmin c (by simp) hxm
        · exact hmin r (by simp) hxm
      · exact hmin x (by simp [hx]) hxm
    -- membership transfers
    have hmem' : m ∈ randomizeRelicsReducer c r :: rs := by
      rcases List.mem_cons.mp hmem with rfl | hm
      · -- m = c
        by_cases hmr : r = m
        · subst hmr
          rcases hsub with h | h <;> simp [h]
        · have hlt : jsLtOpt m.nonce r.nonce = true := hmin r (by simp) hmr
          rw [hstep, hlt]
          simp
      · rcases List.mem_cons.mp hm with rfl | hm
        · -- m = r
          by_cases hmc : c = m
          · subst hmc
            rcases hsub with h | h <;> simp [h]
          · have hlt : jsLtOpt m.nonce c.nonce = true := hmin c (by simp) hmc
            rw [hstep, jsLtOpt_asymm hlt]
            simp
        · simp [hm]
    exact ih _ hclean' hmem' hmin'

/-! ### Claim C1 -/

/-- A result carrying `error: true`, as workers report soft failures. -/
def errorResult : WResult :=
  { error := some JsError.boolTrue, done := true, nonce := some 0, payload := 0 }

/-- A second result carrying `error: true`, with a later nonce. -/
def errorResultLater : WResult :=
  { error := some JsError.boolTrue, done := true, nonce := some 4, payload := 4 }

/-- An error-free worker success with a later nonce than `errorResult`. -/
def successResult : WResult :=
  { error := none, done := true, nonce := some 1, payload := 1 }

/-- C1 counterexample: a collection containing an error result (nonce 0)
followed by a successful result (nonce 1) resolves with the success; the
first error is not surfaced, contradicting the claim that a later success
never masks an earlier error. -/
theorem firstError_masked_by_later_success :
    randomizeRelicsResolve [errorResult, successResult] =
      some (Except.ok successResult) ∧
    randomizeRelicsResolve [errorResult, successResult] ≠
      some (Except.error JsError.boolTrue) := by
  constructor
  · rfl
  · intro h
    simp [randomizeRelicsResolve, selectResult, errorResult, successResult,
      randomizeRelicsReducer, jsLtOpt] at h

/-- C1 amended: an error is surfaced only when every worker result carries
an error, and then `randomizeRelics` rejects with the *last* error in the
results array, not the first; whenever at least one result is error-free,
it resolves with an error-free result, so a success masks any errors. -/
theorem randomizeRelics_error_handling (results : List WResult)
    (hne : results ≠ []) :
    ((∀ r ∈ results, r.error.isSome = true) →
      results.getLast? = selectResult results) ∧
    ((∀ r ∈ results, r.errTruthy = true) →
      ∃ last e, results.getLast? = some last ∧ last.error = some e ∧
        randomizeRelicsResolve results = some (Except.error e)) ∧
    ((∃ r ∈ results, r.error = none) →
      ∃ w, w.error = none ∧
        randomizeRelicsResolve results = some (Except.ok w)) := by
  rcases results with _ | ⟨c, rs⟩
  · exact absurd rfl hne
  refine ⟨fun hall => ?_, fun hall => ?_, fun hex => ?_⟩
  · rw [foldl_reducer_all_error rs c (hall c (by simp))
      (fun r hr => hall r (by simp [hr]))]
    rfl
  · have hall' : ∀ r ∈ c :: rs, r.error.isSome = true := by
      intro r hr
      have := hall r hr
      unfold WResult.errTruthy at this
      rcases h : r.error with _ | e <;> simp [h] at this ⊢
    have hlast := foldl_reducer_all_error rs c (hall' c (by simp))
      (fun r hr => hall' r (by simp [hr]))
    set last := rs.foldl randomizeRelicsReducer c with hdef
    have hmem : last ∈ c :: rs := by
      have hx : last ∈ (c :: rs).getLast? := Option.mem_def.mpr hlast
      rcases List.mem_getLast?_eq_getLast hx with ⟨hh, hx2⟩
      rw [hx2]
      exact List.getLast_mem hh
    have htr : last.errTruthy = true := hall last hmem
    rcases he : last.error with _ | e
    · simp [WResult.errTruthy, he] at htr
    · simp only [WResult.errTruthy, he] at htr
      refine ⟨last, e, hlast, he, ?_⟩
      simp [randomizeRelicsResolve, selectResult, ← hdef, he, htr]
  · have hclean : (rs.foldl randomizeRelicsReducer c).error = none := by
      apply foldl_reducer_clean
      rcases hex with ⟨r, hr, hre⟩
      rcases List.mem_cons.mp hr with rfl | hr
      · exact Or.inl hre
      · exact Or.inr ⟨r, hr, hre⟩
    exact ⟨_, hclean, by simp [randomizeRelicsResolve, selectResult, hclean]⟩

/-- Witness for the amended C1 at a concrete all-error collection of two
results: the second (later) error is the one surfaced. -/
theorem randomizeRelics_error_handling_witness :
    ([errorResult, errorResultLater] : List WResult) ≠ [] ∧
    ((∀ r ∈ [errorResult, errorResultLater], r.errTruthy = true) →
      ∃ last e, [errorResult, errorResultLater].getLast? = some last ∧
        last.error = some e ∧
        randomizeRelicsResolve [errorResult, errorResultLater] =
          some (Except.error e)) := by
  refine ⟨by simp, ?_⟩
  exact (randomizeRelics_error_handling [errorResult, errorResultLater]
    (by simp)).2.1

/-! ### Claim C2 -/

/-- C2: when all reported results are error-free and `m` is the result
with the strictly smallest nonce, the orchestration resolves with `m`,
whatever position `m` occupies in the results array. -/
theorem randomizeRelics_selects_min_nonce (results : List WResult)
    (m : WResult)
    (hclean : ∀ r ∈ results, r.error = none)
    (hmem : m ∈ results)
    (hmin : ∀ r ∈ results, r ≠ m → jsLtOpt m.nonce r.nonce = true) :
    randomizeRelicsResolve results = some (Except.ok m) := by
  rcases results with _ | ⟨c, rs⟩
  · exact absurd hmem (List.not_mem_nil m)
  have hfold := foldl_reducer_min rs c m
    ⟨hclean c (by simp), fun r hr => hclean r (by simp [hr])⟩ hmem hmin
  have hmc : m.error = none := hclean m hmem
  simp [randomizeRelicsResolve, selectResult, hfold, hmc]

/-- A fabricated valid worker result with nonce 5. -/
def resultNonce5 : WResult :=
  { error := none, done := true, nonce := some 5, payload := 55 }

/-- A fabricated valid worker result with nonce 3. -/
def resultNonce3 : WResult :=
  { error := none, done := true, nonce := some 3, payload := 33 }

/-- Witness for C2: with fabricated valid results of nonces 5 and 3 (in
that arrival order), the nonce-3 result is selected. -/
theorem randomizeRelics_selects_min_nonce_witness :
    randomizeRelicsResolve [resultNonce5, resultNonce3] =
      some (Except.ok resultNonce3) :=
  randomizeRelics_selects_min_nonce [resultNonce5, resultNonce3] resultNonce3
    (by decide) (by decide) (by decide)

/-! ### Claim C3 -/

/-- Orchestrator state before any success, with two workers running. -/
def orchTwoWorkers : OrchState := { done := false, running := [true, true], nonce := 2 }

/-- A worker reply reporting a successful attempt. -/
def doneReply : WResult := { error := none, done := true, nonce := some 0, payload := 7 }

/-- C3 counterexample: when worker 0 of two reports the first success, the
handler posts a cancellation to worker 0 only; no cancellation message is
sent to the other worker 1 at that point, contradicting the claim that
every other worker is immediately sent a cancellation. -/
theorem firstSuccess_cancels_only_reporting_worker :
    (handleWorkerMessage orchTwoWorkers 0 doneReply).2 =
      [OrchAction.resolveResult 0 doneReply, OrchAction.cancelMsg 0] ∧
    OrchAction.cancelMsg 1 ∉ (handleWorkerMessage orchTwoWorkers 0 doneReply).2 := by
  decide

/-- C3 amended: on a success (or on any reply arriving after the search is
done), the orchestrator marks the search done, resolves the reporting
worker's promise with that reply — it is not disregarded, and participates
in the nonce tie-break — and posts a cancellation to that worker alone;
every other worker is cancelled only upon its own next reply. -/
theorem handleWorkerMessage_cancellation (st : OrchState) (thread : Nat)
    (r : WResult)
    (hnothrow : ∀ e, r.error = some e → e.truthy = false ∨ e.isBoolean = true)
    (hdone : st.done = true ∨ r.done = true) :
    handleWorkerMessage st thread r =
      ({ st with done := true, running := st.running.set thread false },
        [OrchAction.resolveResult thread r, OrchAction.cancelMsg thread]) ∧
    ∀ t, OrchAction.cancelMsg t ∈ (handleWorkerMessage st thread r).2 →
      t = thread := by
  have hcond : (st.done || r.done) = true := by
    rcases hdone with h | h <;> simp [h]
  have hmain : handleWorkerMessage st thread r =
      ({ st with done := true, running := st.running.set thread false },
        [OrchAction.resolveResult thread r, OrchAction.cancelMsg thread]) := by
    unfold handleWorkerMessage
    rcases he : r.error with _ | e
    · simp [handleWorkerMessage.handleNoThrow, hcond]
    · rcases hnothrow e he with h | h <;>
        simp [h, handleWorkerMessage.handleNoThrow, hcond]
  refine ⟨hmain, fun t ht => ?_⟩
  rw [hmain] at ht
  simp only [List.mem_cons, List.not_mem_nil, or_false, reduceCtorEq,
    false_or, OrchAction.cancelMsg.injEq] at ht
  exact ht

/-- Witness for the amended C3: the first success of worker 0 among two
workers yields exactly a resolution and a cancellation for worker 0. -/
theorem handleWorkerMessage_cancellation_witness :
    handleWorkerMessage orchTwoWorkers 0 doneReply =
      ({ orchTwoWorkers with
          done := true,
          running := orchTwoWorkers.running.set 0 false },
        [OrchAction.resolveResult 0 doneReply, OrchAction.cancelMsg 0]) ∧
    ∀ t, OrchAction.cancelMsg t ∈ (handleWorkerMessage orchTwoWorkers 0 doneReply).2 →
      t = 0 :=
  handleWorkerMessage_cancellation orchTwoWorkers 0 doneReply
    (by intro e he; simp [doneReply] at he) (Or.inr rfl)

/-! ### The solution minimizer: data model and scoring

A raw reachability proof node (the worker result consumed by
`renderSolutions`) either has no `locks` key (a leaf token) or carries an
array of locks, each lock an iterable of further nodes.  `minifySolution`
(source lines 3007-3048) maps each lock to a scored candidate solution
and keeps the best candidate seen so far. -/

/-- A raw proof node: `leaf` has no `locks` key; `node` has a (truthy)
`locks` array. -/
inductive RawNode : Type where
  | leaf (item : String) : RawNode
  | node (item : String) (locks : List (List RawNode)) : RawNode
deriving Repr

/-- A scored requirement as built by `minifySolution`: `leaf` is
`{ item, depth: 1 }` (source lines 3020-3023); `comp` is
`{ item, depth: 1 + solution.depth, solution }` (lines 3014-3018) with
the chosen solution's `depth`/`weight`/`avg`/`requirements` fields stored
inline as `soldepth`, `weight`, `avg`, `reqs`. -/
inductive Req : Type where
  | leaf (item : String) : Req
  | comp (item : String) (soldepth weight : Nat) (avg : Rat) (reqs : List Req) : Req
deriving Repr

mutual

/-- Boolean equality on requirements (component of the decidable-equality
instance; the automatic derive does not handle the nested recursion). -/
def Req.beq : Req → Req → Bool
  | .leaf a, .leaf b => a == b
  | .comp a d w v rs, .comp b e x u ss =>
    a == b && d == e && w == x && v == u && Req.beqList rs ss
  | _, _ => false

/-- Boolean equality on requirement lists. -/
def Req.beqList : List Req → List Req → Bool
  | [], [] => true
  | r :: rs, s :: ss => Req.beq r s && Req.beqList rs ss
  | _, _ => false

end

mutual

theorem Req.beq_iff : ∀ a b : Req, (Req.beq a b = true) ↔ a = b
  | .leaf a, .leaf b => by simp [Req.beq]
  | .leaf _, .comp .. => by simp [Req.beq]
  | .comp .., .leaf _ => by simp [Req.beq]
  | .comp a d w v rs, .comp b e x u ss => by
    simp [Req.beq, Req.beqList_iff rs ss, and_assoc]

theorem Req.beqList_iff : ∀ as bs : List Req, (Req.beqList as bs = true) ↔ as = bs
  | [], [] => by simp [Req.beqList]
  | [], _ :: _ => by simp [Req.beqList]
  | _ :: _, [] => by simp [Req.beqList]
  | r :: rs, s :: ss => by
    simp [Req.beqList, Req.beq_iff r s, Req.beqList_iff rs ss]

end

instance : DecidableEq Req := fun a b => decidable_of_iff _ (Req.beq_iff a b)

/-- The `item` property of a requirement node. -/
def Req.item : Req → String
  | .leaf it => it
  | .comp it _ _ _ _ => it

/-- The stored `depth` field of a requirement: `1` for a leaf
(source line 3022), `1 + solution.depth` for a compound node (3016). -/
def Req.depth : Req → Nat
  | .leaf _ => 1
  | .comp _ sd _ _ _ => 1 + sd

/-- A solution object `{ depth, weight, avg, requirements }` as built on
source lines 3032-3037. -/
structure Solution : Type where
  depth : Nat
  weight : Nat
  avg : Rat
  requirements : List Req
deriving Repr, DecidableEq

/-- The initial reduce accumulator `{ depth: 0, weight: 0 }` (source
lines 3010-3013 and 3150-3153).  Its missing `avg` and `requirements`
fields are modelled as `0` and `[]`; neither is ever read, because the
`min.depth === 0` guard replaces the accumulator before any comparison
and every real candidate from a nonempty lock has positive depth. -/
def initialMin : Solution := { depth := 0, weight := 0, avg := 0, requirements := [] }

/-- The candidate solution built for one lock (source lines 3025-3037).
The source computes `depth` by sorting a copy of the requirements
ascending by depth and popping the last element — the maximum requirement
depth (on an empty lock the source would crash; the fold returns 0 there,
a case excluded by well-formedness hypotheses).  `avg` is the
floating-point quotient `weight / requirements.length`, modelled as an
exact rational. -/
def mkSolution (reqs : List Req) : Solution :=
  { depth := reqs.foldl (fun d r => max d r.depth) 0
    weight := reqs.foldl (fun w r => w + r.depth) 0
    avg := ((reqs.foldl (fun w r => w + r.depth) 0 : Nat) : Rat) / (reqs.length : Rat)
    requirements := reqs }

/-- The comparison on source lines 3038-3047: the candidate `s` replaces
the accumulator `m` iff `m` is the initial sentinel or `s` is strictly
smaller in the lexicographic order on `(depth, weight, avg)`. -/
def minifySelect (m s : Solution) : Solution :=
  if m.depth = 0
      ∨ s.depth < m.depth
      ∨ (s.depth = m.depth ∧ s.weight < m.weight)
      ∨ (s.depth = m.depth ∧ s.weight = m.weight ∧ s.avg < m.avg)
  then s else m

mutual

/-- The per-node mapping inside `minifySolution` (source lines 3008-3024):
a node with a (truthy) `locks` array is scored by reducing its locks and
becomes a compound requirement; a node without one becomes a leaf. -/
def scoreNode : RawNode → Req
  | .leaf it => Req.leaf it
  | .node it locks =>
    let sol := reduceLocks initialMin locks
    Req.comp it sol.depth sol.weight sol.avg sol.requirements

/-- `Array.from(lock).map(...)` of source line 3008. -/
def scoreLock : List RawNode → List Req
  | [] => []
  | n :: ns => scoreNode n :: scoreLock ns

/-- `locks.reduce(minifySolution, { depth: 0, weight: 0 })`
(source lines 3010-3013). -/
def reduceLocks (m : Solution) : List (List RawNode) → Solution
  | [] => m
  | lock :: rest => reduceLocks (minifySelect m (mkSolution (scoreLock lock))) rest

end

/-- The `minifySolution` reducer (source lines 3007-3048): build the
scored candidate for `lock` and keep the better of it and the
accumulator. -/
def minifySolution (m : Solution) (lock : List RawNode) : Solution :=
  minifySelect m (mkSolution (scoreLock lock))

theorem reduceLocks_eq_foldl (locks : List (List RawNode)) (m : Solution) :
    reduceLocks m locks = locks.foldl minifySolution m := by
  induction locks generalizing m with
  | nil => rw [reduceLocks, List.foldl_nil]
  | cons lock rest ih => rw [reduceLocks, List.foldl_cons, minifySolution, ih]

mutual

/-- Node depth according to claim C4's words: "a leaf token with no
further requirements has depth 0", and a sub-solution has depth
`1 + max(child depths)`; a compound node takes the depth of its selected
sub-solution, and since selection is lexicographic with `depth` first,
the selected sub-solution's depth is the minimum over the candidates.
This definition follows the claim, not the source, and exists to be
compared against the source's scoring. -/
def claimC4Depth : RawNode → Nat
  | .leaf _ => 0
  | .node _ locks => claimC4LocksDepth locks

/-- Maximum of the claimed child depths of one lock. -/
def claimC4MaxChild : List RawNode → Nat
  | [] => 0
  | n :: ns => max (claimC4Depth n) (claimC4MaxChild ns)

/-- Minimum claimed sub-solution depth (`1 + max(child depths)` per lock)
over a node's locks. -/
def claimC4LocksDepth : List (List RawNode) → Nat
  | [] => 0
  | [l] => 1 + claimC4MaxChild l
  | l :: ls => min (1 + claimC4MaxChild l) (claimC4LocksDepth ls)

end

/-- Claim C4's `1 + max(child depths)` for a single lock. -/
def claimC4LockDepth (lock : List RawNode) : Nat := 1 + claimC4MaxChild lock

/-- Claim C4's weight of one lock's sub-solution: the sum of the child
depths under the claim's leaf-depth-0 convention. -/
def claimC4Weight (lock : List RawNode) : Nat :=
  (lock.map claimC4Depth).sum

/-- Strict lexicographic order on solution scores `(depth, weight, avg)`
ascending, following claim C5's words. -/
def scoreLexLt (s m : Solution) : Prop :=
  s.depth < m.depth
    ∨ (s.depth = m.depth ∧ s.weight < m.weight)
    ∨ (s.depth = m.depth ∧ s.weight = m.weight ∧ s.avg < m.avg)

instance (s m : Solution) : Decidable (scoreLexLt s m) := by
  unfold scoreLexLt
  infer_instance

/-! ### Simplification, collapsing and rendering -/

/-- A simplified proof node as produced by `simplifySolution` (source
lines 3050-3060): `leafS` models `{item}` with no `solution` key, `compS`
models `{item, solution: [...]}` whose children are the simplified
requirements of the chosen solution. -/
inductive SimpleNode : Type where
  | leafS (item : String) : SimpleNode
  | compS (item : String) (children : List SimpleNode) : SimpleNode
deriving Repr

mutual

/-- Boolean equality on simplified nodes (for the decidable-equality
instance; the automatic derive does not handle the nested recursion). -/
def SimpleNode.beq : SimpleNode → SimpleNode → Bool
  | .leafS a, .leafS b => a == b
  | .compS a cs, .compS b ds => a == b && SimpleNode.beqList cs ds
  | _, _ => false

/-- Boolean equality on lists of simplified nodes. -/
def SimpleNode.beqList : List SimpleNode → List SimpleNode → Bool
  | [], [] => true
  | c :: cs, d :: ds => SimpleNode.beq c d && SimpleNode.beqList cs ds
  | _, _ => false

end

mutual

theorem SimpleNode.beqS_iff : ∀ a b : SimpleNode, (SimpleNode.beq a b = true) ↔ a = b
  | .leafS a, .leafS b => by simp [SimpleNode.beq]
  | .leafS _, .compS .. => by simp [SimpleNode.beq]
  | .compS .., .leafS _ => by simp [SimpleNode.beq]
  | .compS a cs, .compS b ds => by
    simp [SimpleNode.beq, SimpleNode.beqListS_iff cs ds]

theorem SimpleNode.beqListS_iff :
    ∀ as bs : List SimpleNode, (SimpleNode.beqList as bs = true) ↔ as = bs
  | [], [] => by simp [SimpleNode.beqList]
  | [], _ :: _ => by simp [SimpleNode.beqList]
  | _ :: _, [] => by simp [SimpleNode.beqList]
  | c :: cs, d :: ds => by
    simp [SimpleNode.beqList, SimpleNode.beqS_iff c d, SimpleNode.beqListS_iff cs ds]

end

instance : DecidableEq SimpleNode := fun a b =>
  decidable_of_iff _ (SimpleNode.beqS_iff a b)

mutual

/-- `simplifySolution` (source lines 3050-3060): keep only the item and
the chosen solution's requirements, recursively. -/
def simplifySolution : Req → SimpleNode
  | .leaf it => .leafS it
  | .comp it _ _ _ reqs => .compS it (simplifyList reqs)

/-- `node.solution.requirements.map(simplifySolution)` (source line 3054). -/
def simplifyList : List Req → List SimpleNode
  | [] => []
  | r :: rs => simplifySolution r :: simplifyList rs

end

/-- A collapsed proof node as produced by `collapseSolution` (source lines
3106-3123): `tip` models `{items}` with no `solution` key, `branch` models
`{items, solution: [...]}`. -/
inductive Collapsed : Type where
  | tip (items : List String) : Collapsed
  | branch (items : List String) (solution : List Collapsed) : Collapsed
deriving Repr

/-- The `items` property of a collapsed node. -/
def Collapsed.items : Collapsed → List String
  | .tip items => items
  | .branch items _ => items

mutual

/-- Boolean equality on collapsed nodes (for the decidable-equality
instance; the automatic derive does not handle the nested recursion). -/
def Collapsed.beq : Collapsed → Collapsed → Bool
  | .tip a, .tip b => a == b
  | .branch a cs, .branch b ds => a == b && Collapsed.beqList cs ds
  | _, _ => false

/-- Boolean equality on lists of collapsed nodes. -/
def Collapsed.beqList : List Collapsed → List Collapsed → Bool
  | [], [] => true
  | c :: cs, d :: ds => Collapsed.beq c d && Collapsed.beqList cs ds
  | _, _ => false

end

mutual

theorem Collapsed.beqC_iff : ∀ a b : Collapsed, (Collapsed.beq a b = true) ↔ a = b
  | .tip a, .tip b => by simp [Collapsed.beq]
  | .tip _, .branch .. => by simp [Collapsed.beq]
  | .branch .., .tip _ => by simp [Collapsed.beq]
  | .branch a cs, .branch b ds => by
    simp [Collapsed.beq, Collapsed.beqListC_iff cs ds]

theorem Collapsed.beqListC_iff :
    ∀ as bs : List Collapsed, (Collapsed.beqList as bs = true) ↔ as = bs
  | [], [] => by simp [Collapsed.beqList]
  | [], _ :: _ => by simp [Collapsed.beqList]
  | _ :: _, [] => by simp [Collapsed.beqList]
  | c :: cs, d :: ds => by
    simp [Collapsed.beqList, Collapsed.beqC_iff c d, Collapsed.beqListC_iff cs ds]

end

instance : DecidableEq Collapsed := fun a b =>
  decidable_of_iff _ (Collapsed.beqC_iff a b)

mutual

/-- `collapseSolution` (source lines 3106-3123): walk the chain while the
current node's `solution` array has exactly one element, accumulating the
items in acquisition order; at the end of the chain keep the remaining
solution list (collapsed recursively) if one is present. -/
def collapseSolution : SimpleNode → Collapsed
  | .leafS it => .tip [it]
  | .compS it [c] =>
    match collapseSolution c with
    | .tip items => .tip (it :: items)
    | .branch items sol => .branch (it :: items) sol
  | .compS it cs => .branch [it] (collapseList cs)

/-- `curr.solution.map(collapseSolution)` (source line 3117). -/
def collapseList : List SimpleNode → List Collapsed
  | [] => []
  | c :: cs => collapseSolution c :: collapseList cs

end

/-- `indent(level)` (source lines 3003-3005): `level` spaces. -/
def indentStr (level : Nat) : String :=
  String.mk (List.replicate level ' ')

/-- JavaScript `Array.prototype.join(sep)` on a list of strings. -/
def jsJoin (sep : String) : List String → String
  | [] => ""
  | [s] => s
  | s :: rest => s ++ sep ++ jsJoin sep rest

mutual

/-- `renderNode` (source lines 3125-3147).  `relicName` stands for
`ability => relicFromAbility(ability).name`; the relic table lives in
`relics.js`, which is not part of the sources, so the name lookup is kept
abstract as a parameter (modelled from the spec: ability tokens are opaque
identifiers resolved to display names).  String length is counted in
characters, which agrees with JavaScript for the ASCII names involved. -/
def renderNode (relicName : String → String) (indentLevel : Nat) (sub : Bool) :
    Collapsed → List String
  | .tip items =>
    [indentStr indentLevel ++ (if sub then "^ " else "") ++
      jsJoin " < " (items.map relicName)]
  | .branch items sol =>
    let names := items.map relicName
    let line := indentStr indentLevel ++ (if sub then "^ " else "") ++
      jsJoin " < " names
    let lvl := (if sub then indentLevel + 2 else indentLevel) +
      (jsJoin "   " (names.dropLast ++ [""])).length
    line :: renderList relicName lvl sol

/-- `node.solution.map(renderNode.bind(null, indentLevel, true))` plus
the flattening reduce (source lines 3140-3144). -/
def renderList (relicName : String → String) (lvl : Nat) :
    List Collapsed → List String
  | [] => []
  | c :: cs => renderNode relicName lvl true c ++ renderList relicName lvl cs

end

mutual

/-- Whether no node of a collapsed tree has a `solution` list with
exactly one element. -/
def noSingletonB : Collapsed → Bool
  | .tip _ => true
  | .branch _ sol => decide (sol.length ≠ 1) && noSingletonListB sol

/-- List version of `noSingletonB`. -/
def noSingletonListB : List Collapsed → Bool
  | [] => true
  | c :: cs => noSingletonB c && noSingletonListB cs

end

mutual

/-- Whether every node of a collapsed tree has a nonempty `items` list. -/
def itemsNonemptyB : Collapsed → Bool
  | .tip items => decide (items ≠ [])
  | .branch items sol => decide (items ≠ []) && itemsNonemptyListB sol

/-- List version of `itemsNonemptyB`. -/
def itemsNonemptyListB : List Collapsed → Bool
  | [] => true
  | c :: cs => itemsNonemptyB c && itemsNonemptyListB cs

end

mutual

/-- The tokens of a simplified tree in preorder (chain order first, then
children in order). -/
def simpleItems : SimpleNode → List String
  | .leafS it => [it]
  | .compS it cs => it :: simpleItemsList cs

/-- List version of `simpleItems`. -/
def simpleItemsList : List SimpleNode → List String
  | [] => []
  | c :: cs => simpleItems c ++ simpleItemsList cs

end

mutual

/-- The tokens of a collapsed tree in preorder. -/
def collapsedItems : Collapsed → List String
  | .tip items => items
  | .branch items sol => items ++ collapsedItemsList sol

/-- List version of `collapsedItems`. -/
def collapsedItemsList : List Collapsed → List String
  | [] => []
  | c :: cs => collapsedItems c ++ collapsedItemsList cs

end

/-! ### Subset pruning: `collectAbilities` and `pruneSubsets`

JavaScript `Set`s of ability tokens are modelled as lists with set
membership semantics (`add` appends only when absent), and the memoization
`Map` as an association list keyed by item.  The in-place mutation of the
requirement arrays becomes explicit rebuilding, and the shared mutable
map is threaded through every call in program order. -/

/-- `xs.every(x => ys.has(x))`: boolean subset test on token lists. -/
def allMem (xs ys : List String) : Bool :=
  xs.all fun x => ys.contains x

/-- JavaScript `Set.prototype.add`: append if absent. -/
def addAbility (s : List String) (x : String) : List String :=
  if x ∈ s then s else s ++ [x]

/-- Add every element of `xs`, in order. -/
def addAll (s : List String) (xs : List String) : List String :=
  xs.foldl addAbility s

/-- The memoization map of `collectAbilities`, keyed by item: an
association list in insertion order. -/
abbrev AbilityMap := List (String × List String)

/-- `Map.prototype.get`. -/
def mapGet : AbilityMap → String → Option (List String)
  | [], _ => none
  | (k', v) :: rest, k => if k' = k then some v else mapGet rest k

/-- `Map.prototype.set`: overwrite in place or append. -/
def mapSet : AbilityMap → String → List String → AbilityMap
  | [], k, v => [(k, v)]
  | (k', v') :: rest, k, v =>
    if k' = k then (k, v) :: rest else (k', v') :: mapSet rest k v

mutual

/-- `collectAbilities` (source lines 3062-3077): memoized collection of a
node's ability set.  On a cache hit return the cached set; otherwise start
from `{node.item}`, fold over the solution's requirements adding each
child's item and its recursively collected abilities, then cache the
result under `node.item`. -/
def collectAbilities (n : Req) (m : AbilityMap) : List String × AbilityMap :=
  match mapGet m n.item with
  | some abs => (abs, m)
  | none =>
    match n with
    | .leaf it => ([it], mapSet m it [it])
    | .comp it _ _ _ reqs =>
      let p := collectLoop [it] m reqs
      (p.1, mapSet p.2 it p.1)

/-- The `forEach` over `node.solution.requirements` (source lines
3068-3073): add the child's item, then every collected ability of the
child. -/
def collectLoop (abs : List String) (m : AbilityMap) :
    List Req → List String × AbilityMap
  | [] => (abs, m)
  | r :: rs =>
    let p := collectAbilities r m
    collectLoop (addAll (addAbility abs r.item) p.1) p.2 rs

end

/-- Insert into a list sorted by descending depth, after existing entries
of greater or equal depth: a stable model of the in-place
`nodes.sort((a, b) => b.depth - a.depth)` of source lines 3083-3085. -/
def insertDesc (r : Req) : List Req → List Req
  | [] => [r]
  | x :: xs => if r.depth < x.depth then x :: insertDesc r xs else r :: x :: xs

/-- Stable sort by descending depth. -/
def sortDesc : List Req → List Req
  | [] => []
  | r :: rs => insertDesc r (sortDesc rs)

/-- The inner `j` sweep of `pruneSubsets` (source lines 3093-3101): splice
out every node of the list whose collected ability closure is contained in
`abilities`, threading the memo map through the membership checks. -/
def pruneFilter (abilities : List String) (m : AbilityMap) :
    List Req → List Req × AbilityMap
  | [] => ([], m)
  | n :: rest =>
    let p := collectAbilities n m
    if allMem p.1 abilities then pruneFilter abilities p.2 rest
    else
      let q := pruneFilter abilities p.2 rest
      (n :: q.1, q.2)

theorem insertDesc_sizeOf (r : Req) (l : List Req) :
    sizeOf (insertDesc r l) = 1 + sizeOf r + sizeOf l := by
  induction l with
  | nil => simp [insertDesc]
  | cons x xs ih =>
    rw [insertDesc]
    split
    · simp only [List.cons.sizeOf_spec, ih]
      omega
    · simp only [List.cons.sizeOf_spec]

theorem sortDesc_sizeOf (l : List Req) : sizeOf (sortDesc l) = sizeOf l := by
  induction l with
  | nil => rfl
  | cons r rs ih =>
    rw [sortDesc, insertDesc_sizeOf, ih]
    simp only [List.cons.sizeOf_spec]

theorem pruneFilter_sizeOf (abilities : List String) (m : AbilityMap)
    (l : List Req) : sizeOf (pruneFilter abilities m l).1 ≤ sizeOf l := by
  induction l generalizing m with
  | nil => simp [pruneFilter]
  | cons n rest ih =>
    simp only [pruneFilter]
    split
    · exact le_trans (ih _) (by simp only [List.cons.sizeOf_spec]; omega)
    · simp only [List.cons.sizeOf_spec]
      have := ih (collectAbilities n m).2
      omega

mutual

/-- `pruneSubsets` (source lines 3079-3104): on a compound node, sort the
requirement list by descending depth, then iterate: recursively prune the
current node, union its collected closure into the running `abilities`
set, and splice out every later node whose closure is contained in it. -/
def pruneSubsets (n : Req) (m : AbilityMap) : Req × AbilityMap :=
  match n with
  | .leaf it => (.leaf it, m)
  | .comp it d w a reqs =>
    let p := pruneLoop [] m (sortDesc reqs)
    (.comp it d w a p.1, p.2)
termination_by sizeOf n
decreasing_by
  simp only [Req.comp.sizeOf_spec]
  rw [sortDesc_sizeOf]
  omega

/-- The outer `i` loop of `pruneSubsets` (source lines 3087-3102). -/
def pruneLoop (abilities : List String) (m : AbilityMap) :
    List Req → List Req × AbilityMap
  | [] => ([], m)
  | n :: rest =>
    let p1 := pruneSubsets n m
    let p2 := collectAbilities p1.1 p1.2
    let ab := addAll abilities p2.1
    let p3 := pruneFilter ab p2.2 rest
    let p4 := pruneLoop ab p3.2 p3.1
    (p1.1 :: p4.1, p4.2)
termination_by l => sizeOf l
decreasing_by
  · simp only [List.cons.sizeOf_spec]
    omega
  · exact lt_of_le_of_lt (pruneFilter_sizeOf _ _ _)
      (by simp only [List.cons.sizeOf_spec]; omega)

end

mutual

/-- The full transitive ability closure of a requirement node, written
from claim C6's words: the node's item together with every item reachable
through its solution's requirements, with list-membership set
semantics. -/
def closure : Req → List String
  | .leaf it => [it]
  | .comp it _ _ _ reqs => it :: closureList reqs

/-- Union (concatenation) of the closures of a requirement list. -/
def closureList : List Req → List String
  | [] => []
  | r :: rs => closure r ++ closureList rs

end

/-- The drop test of claim C6 on a list not yet walked: keep exactly the
nodes whose closure is not contained in `A`. -/
def specFilter (A : List String) : List Req → List Req
  | [] => []
  | r :: rest =>
    if allMem (closure r) A then specFilter A rest
    else r :: specFilter A rest

mutual

/-- The pruning described by claim C6, written from the claim's words:
sort the requirements by descending depth, then walk the sorted list
keeping a running union `A` of the closures of the nodes kept (processed)
so far; a node is dropped if and only if its full transitive
ability-closure is a subset of `A` — so a node contributing at least one
new ability is never dropped — and every kept node is pruned
recursively. -/
def specPrune : Req → Req
  | .leaf it => .leaf it
  | .comp it d w a reqs => .comp it d w a (specGreedy [] (sortDesc reqs))
termination_by n => sizeOf n
decreasing_by
  simp only [Req.comp.sizeOf_spec]
  rw [sortDesc_sizeOf]
  omega

/-- The greedy keep/drop walk of claim C6. -/
def specGreedy (A : List String) : List Req → List Req
  | [] => []
  | n :: rest =>
    if allMem (closure n) A then specGreedy A rest
    else specPrune n :: specGreedy (addAll A (closure n)) rest
termination_by l => sizeOf l
decreasing_by
  all_goals simp only [List.cons.sizeOf_spec]
  all_goals omega

end

mutual

/-- Whether the item-to-closure map `C` consistently describes every node
of a requirement tree: each node's closure (after any pruning, which
preserves closures) has the same members as `C` of its item.  This is the
well-formedness assumption under which the memoized `collectAbilities` is
faithful to the pure closure; it holds in particular when every item
appears at most once in the tree with `C` mapping it to that node's
closure. -/
def consistentB (C : String → List String) : Req → Bool
  | .leaf it => allMem (C it) [it] && allMem [it] (C it)
  | .comp it d w a reqs =>
    allMem (C it) (closure (.comp it d w a reqs)) &&
    allMem (closure (.comp it d w a reqs)) (C it) &&
    consistentListB C reqs

/-- List version of `consistentB`. -/
def consistentListB (C : String → List String) : List Req → Bool
  | [] => true
  | r :: rs => consistentB C r && consistentListB C rs

end

/-- The memo map only holds sets with the same members as `C` of their
key. -/
def MapOK (C : String → List String) (m : AbilityMap) : Prop :=
  ∀ k v, mapGet m k = some v → ∀ t, t ∈ v ↔ t ∈ C k

/-! ### Pruning correspondence lemmas -/

theorem allMem_iff (xs ys : List String) :
    allMem xs ys = true ↔ ∀ t ∈ xs, t ∈ ys := by
  simp [allMem, List.elem_iff]

theorem allMem_congr {xs xs' ys ys' : List String}
    (hx : ∀ t, t ∈ xs ↔ t ∈ xs') (hy : ∀ t, t ∈ ys ↔ t ∈ ys') :
    allMem xs ys = allMem xs' ys' := by
  have hiff : (allMem xs ys = true) ↔ (allMem xs' ys' = true) := by
    rw [allMem_iff, allMem_iff]
    constructor
    · intro h t ht
      exact (hy t).mp (h t ((hx t).mpr ht))
    · intro h t ht
      exact (hy t).mpr (h t ((hx t).mp ht))
  rcases h1 : allMem xs ys <;> rcases h2 : allMem xs' ys' <;>
    simp_all

theorem mem_addAbility {s : List String} {x t : String} :
    t ∈ addAbility s x ↔ t ∈ s ∨ t = x := by
  unfold addAbility
  split
  · rename_i h
    constructor
    · exact Or.inl
    · rintro (h1 | rfl)
      · exact h1
      · exact h
  · simp

theorem mem_addAll {s xs : List String} {t : String} :
    t ∈ addAll s xs ↔ t ∈ s ∨ t ∈ xs := by
  induction xs generalizing s with
  | nil => simp [addAll]
  | cons x xs ih =>
    show t ∈ addAll (addAbility s x) xs ↔ _
    rw [ih, mem_addAbility]
    simp only [List.mem_cons]
    tauto

theorem item_mem_closure (n : Req) : n.item ∈ closure n := by
  cases n <;> simp [closure, Req.item]

theorem mem_closureList {l : List Req} {t : String} :
    t ∈ closureList l ↔ ∃ r ∈ l, t ∈ closure r := by
  induction l with
  | nil => simp [closureList]
  | cons r rs ih =>
    rw [closureList]
    simp only [List.mem_append, ih, List.mem_cons]
    constructor
    · rintro (h | ⟨r2, hr2, ht⟩)
      · exact ⟨r, Or.inl rfl, h⟩
      · exact ⟨r2, Or.inr hr2, ht⟩
    · rintro ⟨r2, hr2 | hr2, ht⟩
      · exact Or.inl (hr2 ▸ ht)
      · exact Or.inr ⟨r2, hr2, ht⟩

theorem mem_insertDesc {r x : Req} {l : List Req} :
    x ∈ insertDesc r l ↔ x = r ∨ x ∈ l := by
  induction l with
  | nil => simp [insertDesc]
  | cons y ys ih =>
    rw [insertDesc]
    split
    · simp only [List.mem_cons, ih]
      tauto
    · simp only [List.mem_cons]

theorem mem_sortDesc {x : Req} {l : List Req} :
    x ∈ sortDesc l ↔ x ∈ l := by
  induction l with
  | nil => simp [sortDesc]
  | cons r rs ih =>
    rw [sortDesc, mem_insertDesc, ih]
    simp only [List.mem_cons]

theorem mapGet_mapSet (m : AbilityMap) (k k2 : String) (v : List String) :
    mapGet (mapSet m k v) k2 = if k = k2 then some v else mapGet m k2 := by
  induction m with
  | nil => simp [mapSet, mapGet]
  | cons p rest ih =>
    obtain ⟨k', v'⟩ := p
    rw [mapSet]
    split
    · rename_i h
      subst h
      by_cases hk : k' = k2 <;> simp [mapGet, hk]
    · rename_i h
      by_cases hk2 : k' = k2
      · subst hk2
        have : ¬ k = k' := fun g => h g.symm
        simp [mapGet, this]
      · simp [mapGet, hk2, ih]

theorem MapOK_set {C : String → List String} {m : AbilityMap}
    {k : String} {v : List String} (hm : MapOK C m)
    (hv : ∀ t, t ∈ v ↔ t ∈ C k) : MapOK C (mapSet m k v) := by
  intro k2 v2 hget t
  rw [mapGet_mapSet] at hget
  split at hget
  · rename_i h
    cases hget
    exact h ▸ hv t
  · exact hm k2 v2 hget t

theorem consistentListB_iff (C : String → List String) (l : List Req) :
    consistentListB C l = true ↔ ∀ r ∈ l, consistentB C r = true := by
  induction l with
  | nil => simp [consistentListB]
  | cons r rs ih => simp [consistentListB, ih]

theorem consistent_seteq {C : String → List String} {n : Req}
    (h : consistentB C n = true) : ∀ t, t ∈ C n.item ↔ t ∈ closure n := by
  cases n with
  | leaf it =>
    simp only [consistentB, Bool.and_eq_true, allMem_iff] at h
    intro t
    simp only [Req.item, closure]
    exact ⟨fun ht => h.1 t ht, fun ht => h.2 t ht⟩
  | comp it d w a reqs =>
    simp only [consistentB, Bool.and_eq_true, allMem_iff] at h
    intro t
    simp only [Req.item]
    exact ⟨fun ht => h.1.1 t ht, fun ht => h.1.2 t ht⟩

theorem consistent_children {C : String → List String} {it : String}
    {d w : Nat} {a : Rat} {reqs : List Req}
    (h : consistentB C (.comp it d w a reqs) = true) :
    consistentListB C reqs = true := by
  simp only [consistentB, Bool.and_eq_true] at h
  exact h.2

mutual

theorem collectAbilities_spec (C : String → List String) :
    ∀ (n : Req) (m : AbilityMap), consistentB C n = true → MapOK C m →
      (∀ t, t ∈ (collectAbilities n m).1 ↔ t ∈ closure n) ∧
      MapOK C (collectAbilities n m).2
  | .leaf it, m, hc, hm => by
    rw [collectAbilities]
    cases hget : mapGet m (Req.item (.leaf it)) with
    | some abs =>
      refine ⟨fun t => ?_, hm⟩
      rw [hm _ _ hget t]
      exact consistent_seteq hc t
    | none =>
      refine ⟨fun t => by simp [closure], ?_⟩
      exact MapOK_set hm (fun t => (consistent_seteq hc t).symm.trans
        (by simp [Req.item]))
  | .comp it d w a reqs, m, hc, hm => by
    rw [collectAbilities]
    cases hget : mapGet m (Req.item (.comp it d w a reqs)) with
    | some abs =>
      refine ⟨fun t => ?_, hm⟩
      rw [hm _ _ hget t]
      exact consistent_seteq hc t
    | none =>
      obtain ⟨h1, h2⟩ := collectLoop_spec C reqs [it] m
        (consistent_children hc) hm
      constructor
      · intro t
        rw [h1 t]
        simp [closure]
      · refine MapOK_set h2 (fun t => ?_)
        rw [h1 t]
        have := (consistent_seteq hc t).symm
        simp only [Req.item] at this
        rw [← this]
        simp [closure]

theorem collectLoop_spec (C : String → List String) :
    ∀ (l : List Req) (abs : List String) (m : AbilityMap),
      consistentListB C l = true → MapOK C m →
      (∀ t, t ∈ (collectLoop abs m l).1 ↔ t ∈ abs ∨ t ∈ closureList l) ∧
      MapOK C (collectLoop abs m l).2
  | [], abs, m, _, hm => by
    rw [collectLoop]
    exact ⟨fun t => by simp [closureList], hm⟩
  | r :: rs, abs, m, hl, hm => by
    rw [collectLoop]
    have hlr : consistentB C r = true ∧ consistentListB C rs = true := by
      simpa [consistentListB, Bool.and_eq_true] using hl
    obtain ⟨h1, h2⟩ := collectAbilities_spec C r m hlr.1 hm
    obtain ⟨g1, g2⟩ := collectLoop_spec C rs
      (addAll (addAbility abs r.item) (collectAbilities r m).1)
      (collectAbilities r m).2 hlr.2 h2
    refine ⟨fun t => ?_, g2⟩
    rw [g1 t, mem_addAll, mem_addAbility, h1 t]
    rw [closureList]
    simp only [List.mem_append]
    have hit : r.item ∈ closure r := item_mem_closure r
    constructor
    · rintro (((h | rfl) | h) | h)
      · exact Or.inl h
      · exact Or.inr (Or.inl hit)
      · exact Or.inr (Or.inl h)
      · exact Or.inr (Or.inr h)
    · rintro (h | h | h)
      · exact Or.inl (Or.inl (Or.inl h))
      · exact Or.inl (Or.inr h)
      · exact Or.inr h

end

theorem specPrune_item (n : Req) : (specPrune n).item = n.item := by
  cases n <;> rw [specPrune] <;> rfl

theorem specPrune_depth (n : Req) : (specPrune n).depth = n.depth := by
  cases n <;> rw [specPrune] <;> rfl

theorem mem_closureList_sortDesc {l : List Req} {t : String} :
    t ∈ closureList (sortDesc l) ↔ t ∈ closureList l := by
  rw [mem_closureList, mem_closureList]
  constructor
  · rintro ⟨r, hr, ht⟩
    exact ⟨r, mem_sortDesc.mp hr, ht⟩
  · rintro ⟨r, hr, ht⟩
    exact ⟨r, mem_sortDesc.mpr hr, ht⟩

theorem consistentListB_sortDesc {C : String → List String} {l : List Req}
    (h : consistentListB C l = true) :
    consistentListB C (sortDesc l) = true := by
  rw [consistentListB_iff]
  intro r hr
  exact (consistentListB_iff C l).mp h r (mem_sortDesc.mp hr)

mutual

theorem specPrune_preserves (C : String → List String) :
    ∀ (n : Req), consistentB C n = true →
      (∀ t, t ∈ closure (specPrune n) ↔ t ∈ closure n) ∧
      consistentB C (specPrune n) = true
  | .leaf it, hc => by
    rw [specPrune]
    exact ⟨fun t => Iff.rfl, hc⟩
  | .comp it d w a reqs, hc => by
    have hsort : consistentListB C (sortDesc reqs) = true :=
      consistentListB_sortDesc (consistent_children hc)
    obtain ⟨h1, h2⟩ := specGreedy_preserves C (sortDesc reqs) [] hsort
    rw [specPrune]
    have hcl : ∀ t, t ∈ closureList (specGreedy [] (sortDesc reqs)) ↔
        t ∈ closureList reqs := by
      intro t
      have := h1 t
      simp only [List.not_mem_nil, or_false] at this
      rw [this, mem_closureList_sortDesc]
    constructor
    · intro t
      simp only [closure, List.mem_cons]
      rw [hcl t]
    · have hCit := consistent_seteq hc
      simp only [Req.item] at hCit
      simp only [consistentB, Bool.and_eq_true]
      refine ⟨⟨?_, ?_⟩, h2⟩
      · rw [allMem_iff]
        intro t ht
        simp only [closure, List.mem_cons]
        have := (hCit t).mp ht
        simp only [closure, List.mem_cons] at this
        rcases this with h | h
        · exact Or.inl h
        · exact Or.inr ((hcl t).mpr h)
      · rw [allMem_iff]
        intro t ht
        simp only [closure, List.mem_cons] at ht
        apply (hCit t).mpr
        simp only [closure, List.mem_cons]
        rcases ht with h | h
        · exact Or.inl h
        · exact Or.inr ((hcl t).mp h)
termination_by n hc => sizeOf n
decreasing_by
  rw [sortDesc_sizeOf]
  simp only [Req.comp.sizeOf_spec]
  omega

theorem specGreedy_preserves (C : String → List String) :
    ∀ (l : List Req) (A : List String), consistentListB C l = true →
      (∀ t, (t ∈ closureList (specGreedy A l) ∨ t ∈ A) ↔
        (t ∈ closureList l ∨ t ∈ A)) ∧
      consistentListB C (specGreedy A l) = true
  | [], A, _ => by
    rw [specGreedy]
    exact ⟨fun t => Iff.rfl, by simp [consistentListB]⟩
  | n :: rest, A, hl => by
    have hlr : consistentB C n = true ∧ consistentListB C rest = true := by
      simpa [consistentListB, Bool.and_eq_true] using hl
    rw [specGreedy]
    split
    · rename_i hdrop
      obtain ⟨h1, h2⟩ := specGreedy_preserves C rest A hlr.2
      refine ⟨fun t => ?_, h2⟩
      rw [h1 t]
      simp only [closureList, List.mem_append]
      have hsub := (allMem_iff _ _).mp hdrop
      constructor
      · rintro (h | h)
        · exact Or.inl (Or.inr h)
        · exact Or.inr h
      · rintro ((h | h) | h)
        · exact Or.inr (hsub t h)
        · exact Or.inl h
        · exact Or.inr h
    · rename_i hkeep
      obtain ⟨hn1, hn2⟩ := specPrune_preserves C n hlr.1
      obtain ⟨h1, h2⟩ := specGreedy_preserves C rest (addAll A (closure n)) hlr.2
      constructor
      · intro t
        simp only [closureList, List.mem_append]
        have ha1 := h1 t
        constructor
        · rintro ((h | h) | h)
          · exact Or.inl (Or.inl ((hn1 t).mp h))
          · rcases ha1.mp (Or.inl h) with h2 | h2
            · exact Or.inl (Or.inr h2)
            · rcases mem_addAll.mp h2 with h3 | h3
              · exact Or.inr h3
              · exact Or.inl (Or.inl h3)
          · exact Or.inr h
        · rintro ((h | h) | h)
          · exact Or.inl (Or.inl ((hn1 t).mpr h))
          · rcases ha1.mpr (Or.inl h) with h2 | h2
            · exact Or.inl (Or.inr h2)
            · rcases mem_addAll.mp h2 with h3 | h3
              · exact Or.inr h3
              · exact Or.inl (Or.inl ((hn1 t).mpr h3))
          · exact Or.inr h
      · simp only [consistentListB, Bool.and_eq_true]
        exact ⟨hn2, h2⟩
termination_by l A hl => sizeOf l
decreasing_by
  all_goals simp only [List.cons.sizeOf_spec]
  all_goals omega

end

theorem mem_specFilter {A : List String} {l : List Req} {r : Req}
    (h : r ∈ specFilter A l) : r ∈ l := by
  induction l with
  | nil => simpa [specFilter] using h
  | cons x rest ih =>
    rw [specFilter] at h
    split at h
    · exact List.mem_cons_of_mem x (ih h)
    · rcases List.mem_cons.mp h with rfl | h
      · exact List.mem_cons_self r rest
      · exact List.mem_cons_of_mem x (ih h)

theorem specFilter_head {A : List String} {l rest2 : List Req} {n2 : Req}
    (h : specFilter A l = n2 :: rest2) : allMem (closure n2) A = false := by
  induction l generalizing rest2 with
  | nil => simp [specFilter] at h
  | cons x rest ih =>
    rw [specFilter] at h
    split at h
    · exact ih h
    · rename_i hx
      rcases h with ⟨rfl, rfl⟩ | _
      exact Bool.eq_false_iff.mpr hx

theorem pruneFilter_spec (C : String → List String) :
    ∀ (l : List Req) (Acode Aspec : List String) (m : AbilityMap),
      consistentListB C l = true → MapOK C m →
      (∀ t, t ∈ Acode ↔ t ∈ Aspec) →
      (pruneFilter Acode m l).1 = specFilter Aspec l ∧
      MapOK C (pruneFilter Acode m l).2 := by
  intro l
  induction l with
  | nil =>
    intro Acode Aspec m _ hm _
    rw [pruneFilter, specFilter]
    exact ⟨rfl, hm⟩
  | cons r rest ih =>
    intro Acode Aspec m hl hm hA
    have hlr : consistentB C r = true ∧ consistentListB C rest = true := by
      simpa [consistentListB, Bool.and_eq_true] using hl
    obtain ⟨c1, c2⟩ := collectAbilities_spec C r m hlr.1 hm
    have htest : allMem (collectAbilities r m).1 Acode =
        allMem (closure r) Aspec := allMem_congr c1 hA
    simp only [pruneFilter, specFilter, htest]
    split
    · exact ih _ _ _ hlr.2 c2 hA
    · obtain ⟨f1, f2⟩ := ih Acode Aspec (collectAbilities r m).2 hlr.2 c2 hA
      exact ⟨by rw [f1], f2⟩

theorem specGreedy_specFilter :
    ∀ (l : List Req) (A A2 : List String), (∀ t, t ∈ A → t ∈ A2) →
      specGreedy A2 (specFilter A l) = specGreedy A2 l := by
  intro l
  induction l with
  | nil =>
    intro A A2 _
    rw [specFilter]
  | cons r rest ih =>
    intro A A2 hsub
    rw [specFilter]
    split
    · rename_i hdrop
      rw [ih A A2 hsub]
      have hA2 : allMem (closure r) A2 = true := by
        rw [allMem_iff] at hdrop ⊢
        intro t ht
        exact hsub t (hdrop t ht)
      rw [specGreedy, if_pos hA2]
    · rename_i hkeep
      rw [specGreedy, specGreedy]
      by_cases hA2 : allMem (closure r) A2 = true
      · rw [if_pos hA2, if_pos hA2]
        exact ih A A2 hsub
      · rw [if_neg hA2, if_neg hA2]
        rw [ih A (addAll A2 (closure r))
          (fun t ht => mem_addAll.mpr (Or.inl (hsub t ht)))]

mutual

theorem pruneSubsets_spec_aux (C : String → List String) :
    ∀ (n : Req) (m : AbilityMap), consistentB C n = true → MapOK C m →
      (pruneSubsets n m).1 = specPrune n ∧ MapOK C (pruneSubsets n m).2
  | .leaf it, m, _, hm => by
    rw [pruneSubsets, specPrune]
    exact ⟨rfl, hm⟩
  | .comp it d w a reqs, m, hc, hm => by
    have hsort := consistentListB_sortDesc (consistent_children hc)
    have hhead : ∀ n2 rest2, sortDesc reqs = n2 :: rest2 →
        allMem (closure n2) [] = false := by
      intro n2 rest2 _
      rcases hal : allMem (closure n2) [] with _ | _
      · rfl
      · exfalso
        have := (allMem_iff _ _).mp hal n2.item (item_mem_closure n2)
        simp at this
    obtain ⟨h1, h2⟩ := pruneLoop_spec_aux C (sortDesc reqs) [] [] m hsort hm
      (fun t => Iff.rfl) hhead
    rw [pruneSubsets, specPrune]
    exact ⟨by rw [h1], h2⟩
termination_by n m hc hm => sizeOf n
decreasing_by
  rw [sortDesc_sizeOf]
  simp only [Req.comp.sizeOf_spec]
  omega

theorem pruneLoop_spec_aux (C : String → List String) :
    ∀ (l : List Req) (Acode Aspec : List String) (m : AbilityMap),
      consistentListB C l = true → MapOK C m →
      (∀ t, t ∈ Acode ↔ t ∈ Aspec) →
      (∀ n2 rest2, l = n2 :: rest2 → allMem (closure n2) Aspec = false) →
      (pruneLoop Acode m l).1 = specGreedy Aspec l ∧
      MapOK C (pruneLoop Acode m l).2
  | [], Acode, Aspec, m, _, hm, _, _ => by
    rw [pruneLoop, specGreedy]
    exact ⟨rfl, hm⟩
  | n :: rest, Acode, Aspec, m, hl, hm, hA, hhead => by
    have hlr : consistentB C n = true ∧ consistentListB C rest = true := by
      simpa [consistentListB, Bool.and_eq_true] using hl
    obtain ⟨p1eq, p1ok⟩ := pruneSubsets_spec_aux C n m hlr.1 hm
    have hpn := specPrune_preserves C n hlr.1
    obtain ⟨c1, c2⟩ := collectAbilities_spec C (pruneSubsets n m).1
      (pruneSubsets n m).2 (by rw [p1eq]; exact hpn.2) p1ok
    have hcl : ∀ t,
        t ∈ (collectAbilities (pruneSubsets n m).1 (pruneSubsets n m).2).1 ↔
        t ∈ closure n := by
      intro t
      rw [c1 t, p1eq]
      exact hpn.1 t
    have hAB : ∀ t,
        t ∈ addAll Acode
          (collectAbilities (pruneSubsets n m).1 (pruneSubsets n m).2).1 ↔
        t ∈ addAll Aspec (closure n) := by
      intro t
      rw [mem_addAll, mem_addAll, hA t, hcl t]
    obtain ⟨f1, f2⟩ := pruneFilter_spec C rest
      (addAll Acode
        (collectAbilities (pruneSubsets n m).1 (pruneSubsets n m).2).1)
      (addAll Aspec (closure n))
      (collectAbilities (pruneSubsets n m).1 (pruneSubsets n m).2).2
      hlr.2 c2 hAB
    have hfl : consistentListB C
        (pruneFilter
          (addAll Acode
            (collectAbilities (pruneSubsets n m).1 (pruneSubsets n m).2).1)
          (collectAbilities (pruneSubsets n m).1 (pruneSubsets n m).2).2
          rest).1 = true := by
      rw [f1, consistentListB_iff]
      intro r hr
      exact (consistentListB_iff C rest).mp hlr.2 r (mem_specFilter hr)
    obtain ⟨g1, g2⟩ := pruneLoop_spec_aux C
      (pruneFilter
        (addAll Acode
          (collectAbilities (pruneSubsets n m).1 (pruneSubsets n m).2).1)
        (collectAbilities (pruneSubsets n m).1 (pruneSubsets n m).2).2
        rest).1
      (addAll Acode
        (collectAbilities (pruneSubsets n m).1 (pruneSubsets n m).2).1)
      (addAll Aspec (closure n))
      (pruneFilter
        (addAll Acode
          (collectAbilities (pruneSubsets n m).1 (pruneSubsets n m).2).1)
        (collectAbilities (pruneSubsets n m).1 (pruneSubsets n m).2).2
        rest).2
      hfl f2 hAB
      (by
        intro n2 rest2 heq
        rw [f1] at heq
        exact specFilter_head heq)
    have hdropn : allMem (closure n) Aspec = false := hhead n rest rfl
    rw [pruneLoop, specGreedy, if_neg (by rw [hdropn]; exact Bool.false_ne_true)]
    constructor
    · show (pruneSubsets n m).1 :: _ = specPrune n :: _
      rw [p1eq] at f1 g1 ⊢
      rw [g1, f1,
        specGreedy_specFilter rest (addAll Aspec (closure n))
          (addAll Aspec (closure n)) (fun t ht => ht)]
    · exact g2
termination_by l Acode Aspec m hl hm hA hh => sizeOf l
decreasing_by
  · simp only [List.cons.sizeOf_spec]
    omega
  · exact lt_of_le_of_lt (pruneFilter_sizeOf _ _ _)
      (by simp only [List.cons.sizeOf_spec]; omega)

end

/-! ### The minimization pipeline and its re-embedding

`renderSolutions` (source lines 3149-3164) minifies, prunes, simplifies
and collapses before rendering; `minimizePipeline` is that composition up
to the collapsed tree.  Its output type (collapsed nodes) differs from
its input type (raw proof nodes), so "re-minimizing an already-minimized
tree" is read through the canonical re-embedding `uncollapse`, which
unrolls a collapsed node's merged item chain back into the single-lock
raw chain it denotes. -/

/-- The minimization pipeline of `renderSolutions` (source lines
3149-3158): select the best solution with the `minifySolution` reduce,
prune each of its requirements with a fresh ability map, simplify, and
collapse. -/
def minimizePipeline (solutions : List (List RawNode)) : List Collapsed :=
  ((reduceLocks initialMin solutions).requirements.map
    (fun n => (pruneSubsets n []).1)).map
    (fun n => collapseSolution (simplifySolution n))

/-- Unroll a chain of items with no trailing solution into nested
single-lock raw nodes (the empty-items case cannot arise from
`collapseSolution`, whose items lists are nonempty). -/
def uncollapseTip : List String → RawNode
  | [] => RawNode.leaf ""
  | [a] => RawNode.leaf a
  | a :: rest => RawNode.node a [[uncollapseTip rest]]

/-- Unroll a chain of items whose last node carries the given solution
nodes as its single lock. -/
def uncollapseBranch (items : List String) (children : List RawNode) :
    RawNode :=
  match items with
  | [] => RawNode.node "" [children]
  | [a] => RawNode.node a [children]
  | a :: rest => RawNode.node a [[uncollapseBranch rest children]]

mutual

/-- The canonical re-embedding of a collapsed tree into the pipeline's
input type. -/
def uncollapse : Collapsed → RawNode
  | .tip items => uncollapseTip items
  | .branch items sol => uncollapseBranch items (uncollapseList sol)

/-- List version of `uncollapse`. -/
def uncollapseList : List Collapsed → List RawNode
  | [] => []
  | c :: cs => uncollapse c :: uncollapseList cs

end

/-- The `depth` component a fresh scoring would assign to a lock:
the maximum stored requirement depth (the fold of `mkSolution`). -/
def lockDepthOf (reqs : List Req) : Nat :=
  reqs.foldl (fun d r => max d r.depth) 0

mutual

/-- Whether every compound node's stored solution depth agrees with the
maximum of its requirements' depths — true of every tree built by
`minifySolution` and preserved by pruning. -/
def scoredB : Req → Bool
  | .leaf _ => true
  | .comp _ sd _ _ reqs => decide (sd = lockDepthOf reqs) && scoredListB reqs

/-- List version of `scoredB`. -/
def scoredListB : List Req → Bool
  | [] => true
  | r :: rs => scoredB r && scoredListB rs

end

mutual

/-- The tokens of a simplified tree: the same list as `closure` of the
requirement it simplifies. -/
def closureS : SimpleNode → List String
  | .leafS it => [it]
  | .compS it cs => it :: closureSList cs

/-- List version of `closureS`. -/
def closureSList : List SimpleNode → List String
  | [] => []
  | c :: cs => closureS c ++ closureSList cs

end

mutual

/-- The depth a fresh scoring assigns to a simplified node: 1 for a leaf,
`1 + max(child depths)` for a compound node. -/
def sdepthS : SimpleNode → Nat
  | .leafS _ => 1
  | .compS _ cs => 1 + sdepthMax cs

/-- Maximum of the depths of a simplified list (0 when empty). -/
def sdepthMax : List SimpleNode → Nat
  | [] => 0
  | c :: cs => max (sdepthS c) (sdepthMax cs)

end

mutual

/-- `consistentB` transported to simplified trees. -/
def consistentSB (C : String → List String) : SimpleNode → Bool
  | .leafS it => allMem (C it) [it] && allMem [it] (C it)
  | .compS it cs =>
    allMem (C it) (closureS (.compS it cs)) &&
    allMem (closureS (.compS it cs)) (C it) &&
    consistentSListB C cs

/-- List version of `consistentSB`. -/
def consistentSListB (C : String → List String) : List SimpleNode → Bool
  | [] => true
  | s :: rest => consistentSB C s && consistentSListB C rest

end

/-- Whether a requirement list is sorted by descending stored depth. -/
def sortedDescB : List Req → Bool
  | [] => true
  | [_] => true
  | a :: b :: rest => decide (b.depth ≤ a.depth) && sortedDescB (b :: rest)

/-- Whether a simplified list is sorted by descending recomputed depth. -/
def sortedDescSB : List SimpleNode → Bool
  | [] => true
  | [_] => true
  | a :: b :: rest => decide (sdepthS b ≤ sdepthS a) && sortedDescSB (b :: rest)

/-- Whether the greedy closure walk keeps every node of the list: each
node contributes an ability new relative to the running union `A`. -/
def keepsAllSB (A : List String) : List SimpleNode → Bool
  | [] => true
  | s :: rest => !allMem (closureS s) A && keepsAllSB (addAll A (closureS s)) rest

mutual

/-- Whether a simplified tree is irredundant: every compound node's child
list is sorted by descending depth and survives the greedy subset walk in
full.  `specPrune` leaves exactly such trees, and leaves them unchanged. -/
def sirredB : SimpleNode → Bool
  | .leafS _ => true
  | .compS _ cs => sortedDescSB cs && keepsAllSB [] cs && sirredListB cs

/-- List version of `sirredB`. -/
def sirredListB : List SimpleNode → Bool
  | [] => true
  | s :: rest => sirredB s && sirredListB rest

end

/-! ### Claim C6 -/

/-- C6: with a fresh memo map, and under the well-formedness assumption
that an item map `C` consistently describes the closures of the tree
(true in particular when every item names a unique sub-solution, as in a
reachability proof), `pruneSubsets` computes exactly the pruning stated
by the claim (`specPrune`): after sorting a solution's requirement list
by descending depth, a later node is removed if and only if its full
transitive ability-closure is a subset of the union of the closures of
the nodes processed before it, and a node contributing at least one new
ability is never removed. -/
theorem pruneSubsets_prunes_dominated (C : String → List String) (n : Req)
    (hc : consistentB C n = true) :
    (pruneSubsets n []).1 = specPrune n :=
  (pruneSubsets_spec_aux C n [] hc
    (fun k v h => by simp [mapGet] at h)).1

/-- The item-to-closure map of the C6 witness tree. -/
def witnessC : String → List String :=
  fun it =>
    if it = "s" then ["s", "b", "c"]
    else if it = "b" then ["b", "c"]
    else [it]

/-- The C6 witness tree: a solution whose requirements are a depth-2
chain `b → c` and the lone token `c`, whose closure is dominated. -/
def witnessReq : Req :=
  Req.comp "s" 2 3 3 [Req.comp "b" 1 1 1 [Req.leaf "c"], Req.leaf "c"]

/-- Witness for C6: the consistency hypothesis holds on the concrete
tree, and pruning it agrees with the claim's description (dropping the
dominated lone `c`). -/
theorem pruneSubsets_prunes_dominated_witness :
    consistentB witnessC witnessReq = true ∧
    (pruneSubsets witnessReq []).1 = specPrune witnessReq :=
  ⟨by decide, pruneSubsets_prunes_dominated witnessC witnessReq (by decide)⟩

/-! ### Idempotence: transfer lemmas -/

theorem minifySelect_initial (s : Solution) : minifySelect initialMin s = s := by
  unfold minifySelect initialMin
  simp

theorem collapseList_length (l : List SimpleNode) :
    (collapseList l).length = l.length := by
  induction l with
  | nil => simp [collapseList]
  | cons c cs ih => simp [collapseList, ih]

mutual

theorem collapse_inv_node : ∀ n : SimpleNode,
    noSingletonB (collapseSolution n) = true ∧
    itemsNonemptyB (collapseSolution n) = true ∧
    collapsedItems (collapseSolution n) = simpleItems n
  | .leafS it => by
    simp [collapseSolution, noSingletonB, itemsNonemptyB, collapsedItems,
      simpleItems]
  | .compS it [c] => by
    have ih := collapse_inv_node c
    cases hc : collapseSolution c with
    | tip items =>
      rw [hc] at ih
      rw [collapseSolution, hc]
      simp only [noSingletonB, itemsNonemptyB, collapsedItems, simpleItems,
        simpleItemsList, List.append_nil] at ih ⊢
      exact ⟨trivial, by simp, by rw [← ih.2.2]⟩
    | branch items sol =>
      rw [hc] at ih
      rw [collapseSolution, hc]
      simp only [noSingletonB, itemsNonemptyB, collapsedItems, simpleItems,
        simpleItemsList, List.append_nil, Bool.and_eq_true, decide_eq_true_eq]
        at ih ⊢
      refine ⟨ih.1, ⟨by simp, ih.2.1.2⟩, ?_⟩
      rw [← ih.2.2]
      simp
  | .compS it [] => by
    simp [collapseSolution, collapseList, noSingletonB, noSingletonListB,
      itemsNonemptyB, itemsNonemptyListB, collapsedItems, collapsedItemsList,
      simpleItems, simpleItemsList]
  | .compS it (c1 :: c2 :: cs) => by
    have ih := collapse_inv_list (c1 :: c2 :: cs)
    simp only [collapseSolution, noSingletonB, itemsNonemptyB, collapsedItems,
      simpleItems, Bool.and_eq_true, decide_eq_true_eq]
    refine ⟨⟨?_, ih.1⟩, ⟨by simp, ih.2.1⟩, by rw [ih.2.2]; rfl⟩
    rw [collapseList_length]
    simp

theorem collapse_inv_list : ∀ l : List SimpleNode,
    noSingletonListB (collapseList l) = true ∧
    itemsNonemptyListB (collapseList l) = true ∧
    collapsedItemsList (collapseList l) = simpleItemsList l
  | [] => by
    simp [collapseList, noSingletonListB, itemsNonemptyListB,
      collapsedItemsList, simpleItemsList]
  | c :: cs => by
    have ihc := collapse_inv_node c
    have ihl := collapse_inv_list cs
    rw [collapseList]
    simp only [noSingletonListB, itemsNonemptyListB, collapsedItemsList,
      simpleItemsList, Bool.and_eq_true]
    exact ⟨⟨ihc.1, ihl.1⟩, ⟨ihc.2.1, ihl.2.1⟩, by rw [ihc.2.2, ihl.2.2]⟩

end

theorem simplifyList_eq_map (l : List Req) :
    simplifyList l = l.map simplifySolution := by
  induction l with
  | nil => rw [simplifyList, List.map_nil]
  | cons r rs ih => rw [simplifyList, List.map_cons, ih]

theorem collapseList_eq_map (l : List SimpleNode) :
    collapseList l = l.map collapseSolution := by
  induction l with
  | nil => rw [collapseList, List.map_nil]
  | cons c cs ih => rw [collapseList, List.map_cons, ih]

theorem uncollapseList_eq_map (l : List Collapsed) :
    uncollapseList l = l.map uncollapse := by
  induction l with
  | nil => rw [uncollapseList, List.map_nil]
  | cons c cs ih => rw [uncollapseList, List.map_cons, ih]

mutual

theorem closure_eq_closureS : ∀ r : Req,
    closure r = closureS (simplifySolution r)
  | .leaf it => by rw [closure, simplifySolution, closureS]
  | .comp it d w a reqs => by
    rw [closure, simplifySolution, closureS, closureList_eq_closureSList reqs]

theorem closureList_eq_closureSList : ∀ l : List Req,
    closureList l = closureSList (simplifyList l)
  | [] => by rw [closureList, simplifyList, closureSList]
  | r :: rs => by
    rw [closureList, simplifyList, closureSList, closure_eq_closureS r,
      closureList_eq_closureSList rs]

end

mutual

theorem consistentB_eq_consistentSB (C : String → List String) : ∀ r : Req,
    consistentB C r = consistentSB C (simplifySolution r)
  | .leaf it => by rw [consistentB, simplifySolution, consistentSB]
  | .comp it d w a reqs => by
    rw [consistentB, simplifySolution, consistentSB,
      consistentListB_eq C reqs]
    have h : closure (.comp it d w a reqs) =
        closureS (.compS it (simplifyList reqs)) := by
      rw [closure_eq_closureS]
      rw [simplifySolution]
    rw [h]

theorem consistentListB_eq (C : String → List String) : ∀ l : List Req,
    consistentListB C l = consistentSListB C (simplifyList l)
  | [] => by rw [consistentListB, simplifyList, consistentSListB]
  | r :: rs => by
    rw [consistentListB, simplifyList, consistentSListB,
      consistentB_eq_consistentSB C r, consistentListB_eq C rs]

end

theorem lockDepthOf_acc (rs : List Req) (a : Nat) :
    rs.foldl (fun d r => max d r.depth) a = max a (lockDepthOf rs) := by
  induction rs generalizing a with
  | nil => simp [lockDepthOf]
  | cons r rs ih =>
    rw [List.foldl_cons, ih]
    have h2 : lockDepthOf (r :: rs) = max (max 0 r.depth) (lockDepthOf rs) := by
      rw [lockDepthOf, List.foldl_cons, ih]
    rw [h2]
    omega

theorem lockDepthOf_cons (r : Req) (rs : List Req) :
    lockDepthOf (r :: rs) = max r.depth (lockDepthOf rs) := by
  rw [lockDepthOf, List.foldl_cons, lockDepthOf_acc]
  omega

mutual

theorem depth_eq_sdepthS : ∀ r : Req, scoredB r = true →
    Req.depth r = sdepthS (simplifySolution r)
  | .leaf it, _ => by rw [Req.depth, simplifySolution, sdepthS]
  | .comp it d w a reqs, h => by
    rw [scoredB, Bool.and_eq_true, decide_eq_true_eq] at h
    rw [Req.depth, simplifySolution, sdepthS, h.1,
      lockDepth_eq_sdepthMax reqs h.2]

theorem lockDepth_eq_sdepthMax : ∀ l : List Req, scoredListB l = true →
    lockDepthOf l = sdepthMax (simplifyList l)
  | [], _ => by rw [lockDepthOf, simplifyList, sdepthMax, List.foldl_nil]
  | r :: rs, h => by
    rw [scoredListB, Bool.and_eq_true] at h
    rw [lockDepthOf_cons, simplifyList, sdepthMax,
      depth_eq_sdepthS r h.1, lockDepth_eq_sdepthMax rs h.2]

end

theorem scoredListB_iff (l : List Req) :
    scoredListB l = true ↔ ∀ r ∈ l, scoredB r = true := by
  induction l with
  | nil => simp [scoredListB]
  | cons r rs ih => simp [scoredListB, ih]

theorem minifySelect_cases (m s : Solution) :
    minifySelect m s = m ∨ minifySelect m s = s := by
  unfold minifySelect
  split
  · exact Or.inr rfl
  · exact Or.inl rfl

mutual

theorem scoreNode_scored : ∀ n : RawNode, scoredB (scoreNode n) = true
  | .leaf it => by rw [scoreNode, scoredB]
  | .node it locks => by
    rw [scoreNode]
    have h := reduceLocks_scored locks initialMin
      ⟨by rw [initialMin, lockDepthOf, List.foldl_nil],
       by rw [initialMin, scoredListB]⟩
    rw [scoredB, Bool.and_eq_true, decide_eq_true_eq]
    exact ⟨h.1, h.2⟩

theorem scoreLock_scored : ∀ l : List RawNode, scoredListB (scoreLock l) = true
  | [] => by rw [scoreLock, scoredListB]
  | n :: ns => by
    rw [scoreLock, scoredListB, Bool.and_eq_true]
    exact ⟨scoreNode_scored n, scoreLock_scored ns⟩

theorem reduceLocks_scored : ∀ (locks : List (List RawNode)) (m : Solution),
    (m.depth = lockDepthOf m.requirements ∧
      scoredListB m.requirements = true) →
    ((reduceLocks m locks).depth =
        lockDepthOf (reduceLocks m locks).requirements ∧
      scoredListB (reduceLocks m locks).requirements = true)
  | [], m, hm => by
    rw [reduceLocks]
    exact hm
  | lock :: rest, m, hm => by
    rw [reduceLocks]
    apply reduceLocks_scored rest
    rcases minifySelect_cases m (mkSolution (scoreLock lock)) with h | h
    · rw [h]
      exact hm
    · rw [h]
      exact ⟨by rw [mkSolution, lockDepthOf], scoreLock_scored lock⟩

end

theorem sortedDescB_tail {a : Req} {l : List Req}
    (h : sortedDescB (a :: l) = true) : sortedDescB l = true := by
  rcases l with _ | ⟨b, rest⟩
  · rw [sortedDescB]
  · rw [sortedDescB, Bool.and_eq_true] at h
    exact h.2

theorem sortedDescB_head_ge {a : Req} {l : List Req}
    (h : sortedDescB (a :: l) = true) : ∀ r ∈ l, r.depth ≤ a.depth := by
  induction l generalizing a with
  | nil => intro r hr; exact absurd hr (List.not_mem_nil r)
  | cons b rest ih =>
    rw [sortedDescB, Bool.and_eq_true, decide_eq_true_eq] at h
    intro r hr
    rcases List.mem_cons.mp hr with rfl | hr
    · exact h.1
    · exact le_trans (ih h.2 r hr) h.1

theorem sortDesc_of_sorted {l : List Req}
    (h : sortedDescB l = true) : sortDesc l = l := by
  induction l with
  | nil => rw [sortDesc]
  | cons a rest ih =>
    rw [sortDesc, ih (sortedDescB_tail h)]
    rcases rest with _ | ⟨b, rest2⟩
    · rw [insertDesc]
    · rw [sortedDescB, Bool.and_eq_true, decide_eq_true_eq] at h
      rw [insertDesc, if_neg (by omega)]

theorem lockDepthOf_le_of_all {l : List Req} {b : Nat}
    (h : ∀ r ∈ l, r.depth ≤ b) : lockDepthOf l ≤ b := by
  induction l with
  | nil => rw [lockDepthOf, List.foldl_nil]; omega
  | cons r rs ih =>
    rw [lockDepthOf_cons]
    have h1 := h r (by simp)
    have h2 := ih (fun x hx => h x (by simp [hx]))
    omega

theorem mem_le_lockDepthOf {l : List Req} {r : Req} (h : r ∈ l) :
    r.depth ≤ lockDepthOf l := by
  induction l with
  | nil => exact absurd h (List.not_mem_nil r)
  | cons x xs ih =>
    rw [lockDepthOf_cons]
    rcases List.mem_cons.mp h with rfl | h
    · omega
    · have := ih h
      omega

theorem sortedDescB_transfer : ∀ l : List Req, scoredListB l = true →
    sortedDescSB (simplifyList l) = sortedDescB l
  | [] => fun _ => by rw [simplifyList, sortedDescSB, sortedDescB]
  | [a] => fun _ => by
    rw [simplifyList, simplifyList, sortedDescSB, sortedDescB]
  | a :: b :: rest => fun h => by
    have ha : scoredB a = true ∧ scoredB b = true ∧
        scoredListB rest = true := by
      rw [scoredListB, scoredListB, Bool.and_eq_true, Bool.and_eq_true] at h
      exact ⟨h.1, h.2.1, h.2.2⟩
    rw [simplifyList, simplifyList, sortedDescSB, sortedDescB]
    have htail := sortedDescB_transfer (b :: rest) (by
      rw [scoredListB, Bool.and_eq_true]
      exact ⟨ha.2.1, ha.2.2⟩)
    rw [simplifyList] at htail
    rw [htail, ← depth_eq_sdepthS a ha.1, ← depth_eq_sdepthS b ha.2.1]

mutual

theorem specPrune_closure_pure : ∀ (n : Req) (t : String),
    t ∈ closure (specPrune n) ↔ t ∈ closure n
  | .leaf it, t => by rw [specPrune]
  | .comp it d w a reqs, t => by
    rw [specPrune]
    have h := specGreedy_closure_pure (sortDesc reqs) [] t
    simp only [List.not_mem_nil, or_false] at h
    simp only [closure, List.mem_cons]
    rw [h, mem_closureList_sortDesc]
termination_by n t => sizeOf n
decreasing_by
  rw [sortDesc_sizeOf]
  simp only [Req.comp.sizeOf_spec]
  omega

theorem specGreedy_closure_pure : ∀ (l : List Req) (A : List String)
    (t : String),
    (t ∈ closureList (specGreedy A l) ∨ t ∈ A) ↔
    (t ∈ closureList l ∨ t ∈ A)
  | [], A, t => by rw [specGreedy]
  | n :: rest, A, t => by
    rw [specGreedy]
    split
    · rename_i hdrop
      rw [specGreedy_closure_pure rest A t]
      simp only [closureList, List.mem_append]
      have hsub := (allMem_iff _ _).mp hdrop
      constructor
      · rintro (h | h)
        · exact Or.inl (Or.inr h)
        · exact Or.inr h
      · rintro ((h | h) | h)
        · exact Or.inr (hsub t h)
        · exact Or.inl h
        · exact Or.inr h
    · rename_i hkeep
      have hrec := specGreedy_closure_pure rest (addAll A (closure n)) t
      have hn := specPrune_closure_pure n t
      simp only [closureList, List.mem_append]
      constructor
      · rintro ((h | h) | h)
        · exact Or.inl (Or.inl (hn.mp h))
        · rcases hrec.mp (Or.inl h) with h2 | h2
          · exact Or.inl (Or.inr h2)
          · rcases mem_addAll.mp h2 with h3 | h3
            · exact Or.inr h3
            · exact Or.inl (Or.inl h3)
        · exact Or.inr h
      · rintro ((h | h) | h)
        · exact Or.inl (Or.inl (hn.mpr h))
        · rcases hrec.mpr (Or.inl h) with h2 | h2
          · exact Or.inl (Or.inr h2)
          · rcases mem_addAll.mp h2 with h3 | h3
            · exact Or.inr h3
            · exact Or.inl (Or.inl (hn.mpr h3))
        · exact Or.inr h
termination_by l A t => sizeOf l
decreasing_by
  all_goals simp only [List.cons.sizeOf_spec]
  all_goals omega

end

theorem sortedDescB_cons_iff (a : Req) (l : List Req) :
    sortedDescB (a :: l) = true ↔
      sortedDescB l = true ∧ ∀ r ∈ l, r.depth ≤ a.depth := by
  constructor
  · intro h
    exact ⟨sortedDescB_tail h, sortedDescB_head_ge h⟩
  · rintro ⟨h1, h2⟩
    rcases l with _ | ⟨b, rest⟩
    · rw [sortedDescB]
    · rw [sortedDescB, Bool.and_eq_true, decide_eq_true_eq]
      exact ⟨h2 b (by simp), h1⟩

theorem insertDesc_sorted {r : Req} {l : List Req}
    (h : sortedDescB l = true) : sortedDescB (insertDesc r l) = true := by
  induction l with
  | nil => rw [insertDesc, sortedDescB]
  | cons x xs ih =>
    obtain ⟨hxs, hge⟩ := (sortedDescB_cons_iff x xs).mp h
    rw [insertDesc]
    split
    · rename_i hlt
      rw [sortedDescB_cons_iff]
      refine ⟨ih hxs, ?_⟩
      intro y hy
      rcases mem_insertDesc.mp hy with rfl | hy
      · omega
      · exact hge y hy
    · rename_i hge2
      rw [sortedDescB_cons_iff]
      refine ⟨h, ?_⟩
      intro y hy
      rcases List.mem_cons.mp hy with rfl | hy
      · omega
      · have := hge y hy
        omega

theorem sortDesc_sorted (l : List Req) : sortedDescB (sortDesc l) = true := by
  induction l with
  | nil => rw [sortDesc, sortedDescB]
  | cons r rs ih => rw [sortDesc]; exact insertDesc_sorted ih

theorem insertDesc_ne_nil (r : Req) (l : List Req) : insertDesc r l ≠ [] := by
  cases l with
  | nil => rw [insertDesc]; exact List.cons_ne_nil r []
  | cons x xs =>
    rw [insertDesc]
    split
    · exact List.cons_ne_nil x _
    · exact List.cons_ne_nil r _

theorem sortDesc_eq_nil {l : List Req} (h : sortDesc l = []) : l = [] := by
  cases l with
  | nil => rfl
  | cons r rs =>
    rw [sortDesc] at h
    exact absurd h (insertDesc_ne_nil r (sortDesc rs))

theorem lockDepthOf_sortDesc (l : List Req) :
    lockDepthOf (sortDesc l) = lockDepthOf l := by
  apply le_antisymm
  · exact lockDepthOf_le_of_all
      (fun r hr => mem_le_lockDepthOf (mem_sortDesc.mp hr))
  · exact lockDepthOf_le_of_all
      (fun r hr => mem_le_lockDepthOf (mem_sortDesc.mpr hr))

theorem allMem_closure_nil (n : Req) : allMem (closure n) [] = false := by
  rcases h : allMem (closure n) [] with _ | _
  · rfl
  · exfalso
    have := (allMem_iff _ _).mp h n.item (item_mem_closure n)
    simp at this

mutual

theorem specPrune_scored_sirred : ∀ r : Req, scoredB r = true →
    scoredB (specPrune r) = true ∧
    sirredB (simplifySolution (specPrune r)) = true
  | .leaf it, _ => by
    rw [specPrune]
    exact ⟨by rw [scoredB], by rw [simplifySolution, sirredB]⟩
  | .comp it d w a reqs, h => by
    have hdl : d = lockDepthOf reqs ∧ scoredListB reqs = true := by
      rw [scoredB, Bool.and_eq_true, decide_eq_true_eq] at h
      exact h
    have hscored : scoredListB (sortDesc reqs) = true := by
      rw [scoredListB_iff]
      intro r hr
      exact (scoredListB_iff reqs).mp hdl.2 r (mem_sortDesc.mp hr)
    obtain ⟨g1, g2, g3, g4, g5, g6, g7⟩ :=
      specGreedy_scored_sirred (sortDesc reqs) [] hscored (sortDesc_sorted reqs)
    rw [specPrune]
    constructor
    · rw [scoredB, Bool.and_eq_true, decide_eq_true_eq]
      refine ⟨?_, g1⟩
      rcases hs : sortDesc reqs with _ | ⟨h0, rest0⟩
      · rw [specGreedy]
        rw [hdl.1]
        rw [← lockDepthOf_sortDesc reqs, hs]
      · rw [hs] at g6
        rw [hdl.1, ← lockDepthOf_sortDesc reqs, hs]
        exact (g6 h0 rest0 rfl (allMem_closure_nil h0)).symm
    · rw [simplifySolution, sirredB]
      simp only [Bool.and_eq_true]
      exact ⟨⟨g3, g4 [] (fun t => Iff.rfl)⟩, g2⟩
termination_by r h => sizeOf r
decreasing_by
  rw [sortDesc_sizeOf]
  simp only [Req.comp.sizeOf_spec]
  omega

theorem specGreedy_scored_sirred : ∀ (l : List Req) (A : List String),
    scoredListB l = true → sortedDescB l = true →
    scoredListB (specGreedy A l) = true ∧
    sirredListB (simplifyList (specGreedy A l)) = true ∧
    sortedDescSB (simplifyList (specGreedy A l)) = true ∧
    (∀ A2, (∀ t, t ∈ A2 ↔ t ∈ A) →
      keepsAllSB A2 (simplifyList (specGreedy A l)) = true) ∧
    (specGreedy A l = [] ∨
      ∃ orig ∈ l, ∃ t2, specGreedy A l = specPrune orig :: t2 ∧
        sdepthS (simplifySolution (specPrune orig)) = orig.depth) ∧
    (∀ h0 rest0, l = h0 :: rest0 → allMem (closure h0) A = false →
      lockDepthOf (specGreedy A l) = lockDepthOf l) ∧
    lockDepthOf (specGreedy A l) ≤ lockDepthOf l
  | [], A, _, _ => by
    rw [specGreedy]
    refine ⟨by rw [scoredListB], by rw [simplifyList, sirredListB],
      by rw [simplifyList, sortedDescSB], fun A2 _ => by rw [simplifyList, keepsAllSB],
      Or.inl rfl, ?_, le_refl _⟩
    intro h0 rest0 heq
    cases heq
  | n :: rest, A, hsc, hsort => by
    have hscr : scoredB n = true ∧ scoredListB rest = true := by
      rw [scoredListB, Bool.and_eq_true] at hsc
      exact hsc
    obtain ⟨htail, hge⟩ := (sortedDescB_cons_iff n rest).mp hsort
    rw [specGreedy]
    split
    · rename_i hdrop
      obtain ⟨g1, g2, g3, g4, g5, g6, g7⟩ :=
        specGreedy_scored_sirred rest A hscr.2 htail
      refine ⟨g1, g2, g3, g4, ?_, ?_, ?_⟩
      · rcases g5 with h | ⟨orig, ho, t2, ht, hsdo⟩
        · exact Or.inl h
        · exact Or.inr ⟨orig, by simp [ho], t2, ht, hsdo⟩
      · intro h0 rest0 heq hfalse
        cases heq
        rw [hdrop] at hfalse
        cases hfalse
      · rw [lockDepthOf_cons]
        omega
    · rename_i hkeep
      obtain ⟨pn1, pn2⟩ := specPrune_scored_sirred n hscr.1
      obtain ⟨g1, g2, g3, g4, g5, g6, g7⟩ :=
        specGreedy_scored_sirred rest (addAll A (closure n)) hscr.2 htail
      have hdn : (specPrune n).depth = n.depth := specPrune_depth n
      have hsd : sdepthS (simplifySolution (specPrune n)) = n.depth := by
        rw [← depth_eq_sdepthS _ pn1, hdn]
      refine ⟨?_, ?_, ?_, ?_, ?_, ?_, ?_⟩
      · rw [scoredListB, Bool.and_eq_true]
        exact ⟨pn1, g1⟩
      · rw [simplifyList, sirredListB, Bool.and_eq_true]
        exact ⟨pn2, g2⟩
      · rw [simplifyList]
        rcases g5 with hnil | ⟨orig, ho, t2, ht, hsdo⟩
        · rw [hnil, simplifyList, sortedDescSB]
        · rw [ht, simplifyList, sortedDescSB, Bool.and_eq_true,
            decide_eq_true_eq]
          constructor
          · rw [hsdo, hsd]
            exact hge orig ho
          · have := g3
            rw [ht, simplifyList] at this
            exact this
      · intro A2 hA2
        rw [simplifyList, keepsAllSB, Bool.and_eq_true]
        constructor
        · have hcs : closureS (simplifySolution (specPrune n)) = closure (specPrune n) :=
            (closure_eq_closureS (specPrune n)).symm
          have : allMem (closureS (simplifySolution (specPrune n))) A2 =
              allMem (closure n) A := by
            rw [hcs]
            exact allMem_congr (specPrune_closure_pure n) hA2
          rw [this]
          rw [Bool.not_eq_true']
          exact Bool.eq_false_iff.mpr hkeep
        · apply g4
          intro t
          rw [mem_addAll, mem_addAll, hA2 t]
          have hcs : t ∈ closureS (simplifySolution (specPrune n)) ↔
              t ∈ closure n := by
            rw [← closure_eq_closureS]
            exact specPrune_closure_pure n t
          rw [hcs]
      · exact Or.inr ⟨n, by simp, specGreedy (addAll A (closure n)) rest,
          rfl, hsd⟩
      · intro h0 rest0 heq _
        cases heq
        rw [lockDepthOf_cons, lockDepthOf_cons, hdn]
        have hle : lockDepthOf rest ≤ n.depth :=
          lockDepthOf_le_of_all hge
        have := g7
        omega
      · rw [lockDepthOf_cons, lockDepthOf_cons, hdn]
        omega
termination_by l A h1 h2 => sizeOf l
decreasing_by
  all_goals simp only [List.cons.sizeOf_spec]
  all_goals omega

end

mutual

theorem specPrune_id : ∀ r : Req, scoredB r = true →
    sirredB (simplifySolution r) = true → specPrune r = r
  | .leaf it, _, _ => by rw [specPrune]
  | .comp it d w a reqs, hsc, hir => by
    have hdl : d = lockDepthOf reqs ∧ scoredListB reqs = true := by
      rw [scoredB, Bool.and_eq_true, decide_eq_true_eq] at hsc
      exact hsc
    rw [simplifySolution, sirredB] at hir
    simp only [Bool.and_eq_true] at hir
    have hsorted : sortedDescB reqs = true := by
      rw [← sortedDescB_transfer reqs hdl.2]
      exact hir.1.1
    rw [specPrune, sortDesc_of_sorted hsorted,
      specGreedy_id reqs [] hdl.2 hir.2 hir.1.2]
termination_by r h1 h2 => sizeOf r
decreasing_by
  simp only [Req.comp.sizeOf_spec]
  omega

theorem specGreedy_id : ∀ (l : List Req) (A : List String),
    scoredListB l = true → sirredListB (simplifyList l) = true →
    keepsAllSB A (simplifyList l) = true →
    specGreedy A l = l
  | [], A, _, _, _ => by rw [specGreedy]
  | n :: rest, A, hsc, hir, hka => by
    rw [simplifyList] at hir hka
    rw [sirredListB, Bool.and_eq_true] at hir
    rw [keepsAllSB, Bool.and_eq_true] at hka
    have hcseq : closureS (simplifySolution n) = closure n :=
      (closure_eq_closureS n).symm
    have hscn : scoredB n = true ∧ scoredListB rest = true := by
      rw [scoredListB, Bool.and_eq_true] at hsc
      exact hsc
    have htest : allMem (closure n) A = false := by
      have h2 := hka.1
      rw [hcseq, Bool.not_eq_true'] at h2
      exact h2
    rw [specGreedy, if_neg (by rw [htest]; exact Bool.false_ne_true)]
    rw [specPrune_id n hscn.1 hir.1]
    congr 1
    have hka2 : keepsAllSB (addAll A (closure n)) (simplifyList rest) = true := by
      have h2 := hka.2
      rw [hcseq] at h2
      exact h2
    exact specGreedy_id rest (addAll A (closure n)) hscn.2 hir.2 hka2
termination_by l A h1 h2 h3 => sizeOf l
decreasing_by
  all_goals simp only [List.cons.sizeOf_spec]
  all_goals omega

end

theorem scoreNode_single_lock (a : String) (lock : List RawNode) :
    scoreNode (RawNode.node a [lock]) =
      Req.comp a (mkSolution (scoreLock lock)).depth
        (mkSolution (scoreLock lock)).weight
        (mkSolution (scoreLock lock)).avg (scoreLock lock) := by
  rw [scoreNode, reduceLocks, minifySelect_initial, reduceLocks]
  rfl

mutual

theorem resimplify_id : ∀ s : SimpleNode,
    simplifySolution (scoreNode (uncollapse (collapseSolution s))) = s
  | .leafS it => by
    rw [collapseSolution, uncollapse, uncollapseTip, scoreNode,
      simplifySolution]
  | .compS a [c] => by
    have ih := resimplify_id c
    cases hc : collapseSolution c with
    | tip items =>
      rw [hc] at ih
      have hne : items ≠ [] := by
        have h2 := (collapse_inv_node c).2.1
        rw [hc, itemsNonemptyB] at h2
        exact of_decide_eq_true h2
      rcases items with _ | ⟨b, rest⟩
      · exact absurd rfl hne
      rw [collapseSolution, hc, uncollapse, uncollapseTip,
        scoreNode_single_lock, simplifySolution, scoreLock, scoreLock,
        simplifyList, simplifyList]
      rw [uncollapse] at ih
      rw [ih]
      exact hne
    | branch items sol =>
      rw [hc] at ih
      have hne : items ≠ [] := by
        have h2 := (collapse_inv_node c).2.1
        rw [hc, itemsNonemptyB, Bool.and_eq_true] at h2
        exact of_decide_eq_true h2.1
      rcases items with _ | ⟨b, rest⟩
      · exact absurd rfl hne
      rw [collapseSolution, hc, uncollapse, uncollapseBranch,
        scoreNode_single_lock, simplifySolution, scoreLock, scoreLock,
        simplifyList, simplifyList]
      rw [uncollapse] at ih
      rw [ih]
      exact hne
  | .compS a [] => by
    have hcol : collapseSolution (.compS a []) =
        Collapsed.branch [a] [] := by
      simp [collapseSolution, collapseList]
    rw [hcol, uncollapse, uncollapseList, uncollapseBranch,
      scoreNode_single_lock, simplifySolution, scoreLock, simplifyList]
  | .compS a (c1 :: c2 :: cs) => by
    have ihl := resimplifyList_id (c1 :: c2 :: cs)
    have hcol : collapseSolution (.compS a (c1 :: c2 :: cs)) =
        Collapsed.branch [a] (collapseList (c1 :: c2 :: cs)) := by
      simp [collapseSolution]
    rw [hcol, uncollapse, uncollapseBranch, scoreNode_single_lock,
      simplifySolution, ihl]

theorem resimplifyList_id : ∀ l : List SimpleNode,
    simplifyList (scoreLock (uncollapseList (collapseList l))) = l
  | [] => by rw [collapseList, uncollapseList, scoreLock, simplifyList]
  | c :: cs => by
    rw [collapseList, uncollapseList, scoreLock, simplifyList,
      resimplifyList_id cs, resimplify_id c]

end

theorem scoreLock_eq_map (l : List RawNode) : scoreLock l = l.map scoreNode := by
  induction l with
  | nil => rw [scoreLock, List.map_nil]
  | cons n ns ih => rw [scoreLock, List.map_cons, ih]

theorem mkSolution_requirements (reqs : List Req) :
    (mkSolution reqs).requirements = reqs := rfl

/-- One pipeline element: after pruning, simplifying and collapsing a
scored requirement, re-scoring the uncollapsed tree and running the
prune/simplify/collapse stage again yields the same collapsed tree. -/
theorem pipeline_step_id (C : String → List String) (r : Req)
    (hc : consistentB C r = true) (hs : scoredB r = true) :
    collapseSolution (simplifySolution
      (pruneSubsets (scoreNode (uncollapse (collapseSolution
        (simplifySolution (pruneSubsets r []).1)))) []).1) =
    collapseSolution (simplifySolution (pruneSubsets r []).1) := by
  have hmap : MapOK C ([] : AbilityMap) := by
    intro k v h
    simp [mapGet] at h
  have hp : (pruneSubsets r []).1 = specPrune r :=
    (pruneSubsets_spec_aux C r [] hc hmap).1
  have hss := specPrune_scored_sirred r hs
  have hres := resimplify_id (simplifySolution (pruneSubsets r []).1)
  have hsc2 : scoredB (scoreNode (uncollapse (collapseSolution
      (simplifySolution (pruneSubsets r []).1)))) = true :=
    scoreNode_scored _
  have hir2 : sirredB (simplifySolution (scoreNode (uncollapse
      (collapseSolution (simplifySolution
        (pruneSubsets r []).1))))) = true := by
    rw [hres, hp]
    exact hss.2
  have hc2 : consistentB C (scoreNode (uncollapse (collapseSolution
      (simplifySolution (pruneSubsets r []).1)))) = true := by
    rw [consistentB_eq_consistentSB, hres, hp,
      ← consistentB_eq_consistentSB]
    exact (specPrune_preserves C r hc).2
  have hp2 := (pruneSubsets_spec_aux C _ [] hc2 hmap).1
  rw [hp2, specPrune_id _ hsc2 hir2, hres]

/-! ### Claim C7 -/

/-- C7: minimization is idempotent.  Feeding the minimized collapsed
trees (read back through the canonical `uncollapse` re-embedding, as a
single lock) through the pipeline of scoring/selection, subset pruning
and chain collapsing reproduces the identical collapsed trees, with no
further pruning or collapsing possible; as in C6, an item map `C` is
assumed to describe the closures of the selected solution consistently,
which makes the item-keyed memoization of `collectAbilities` faithful. -/
theorem minimizePipeline_idempotent (C : String → List String)
    (solutions : List (List RawNode))
    (hcons : consistentListB C
      (reduceLocks initialMin solutions).requirements = true) :
    minimizePipeline [(minimizePipeline solutions).map uncollapse] =
      minimizePipeline solutions := by
  have hscored : scoredListB
      (reduceLocks initialMin solutions).requirements = true :=
    (reduceLocks_scored solutions initialMin
      ⟨by rw [initialMin, lockDepthOf, List.foldl_nil],
       by rw [initialMin, scoredListB]⟩).2
  rw [minimizePipeline]
  rw [reduceLocks, minifySelect_initial, reduceLocks]
  rw [mkSolution_requirements, scoreLock_eq_map, minimizePipeline]
  simp only [List.map_map]
  apply List.map_congr_left
  intro r hr
  simp only [Function.comp_apply]
  exact pipeline_step_id C r
    ((consistentListB_iff C _).mp hcons r hr)
    ((scoredListB_iff _).mp hscored r hr)

/-- The item-to-closure map of the C7 witness input. -/
def idemC : String → List String :=
  fun it => if it = "s" then ["s", "b"] else [it]

/-- The C7 witness input: one solution whose lone node requires a leaf. -/
def idemSolutions : List (List RawNode) :=
  [[RawNode.node "s" [[RawNode.leaf "b"]]]]

/-- Witness for C7: the consistency hypothesis holds on the concrete
input, and re-minimizing its minimized tree reproduces it. -/
theorem minimizePipeline_idempotent_witness :
    consistentListB idemC
      (reduceLocks initialMin idemSolutions).requirements = true ∧
    minimizePipeline [(minimizePipeline idemSolutions).map uncollapse] =
      minimizePipeline idemSolutions :=
  ⟨by decide, minimizePipeline_idempotent idemC idemSolutions (by decide)⟩

/-! ### Scoring lemmas -/

theorem Req.depth_pos (r : Req) : 1 ≤ r.depth := by
  cases r <;> simp [Req.depth]

theorem foldl_max_spec (l : List Nat) (a : Nat) :
    (∀ x ∈ l, x ≤ l.foldl max a) ∧ a ≤ l.foldl max a ∧
    (l.foldl max a = a ∨ l.foldl max a ∈ l) := by
  induction l generalizing a with
  | nil => simp
  | cons x xs ih =>
    obtain ⟨h1, h2, h3⟩ := ih (max a x)
    rw [List.foldl_cons]
    refine ⟨?_, le_trans (le_max_left a x) h2, ?_⟩
    · intro y hy
      rcases List.mem_cons.mp hy with rfl | hy
      · exact le_trans (le_max_right a y) h2
      · exact h1 y hy
    · rcases h3 with h | h
      · rcases max_choice a x with hm | hm
        · exact Or.inl (h.trans hm)
        · refine Or.inr ?_
          rw [h, hm]
          exact List.mem_cons_self x xs
      · exact Or.inr (List.mem_cons_of_mem x h)

theorem foldl_add_depth (l : List Req) (a : Nat) :
    l.foldl (fun w r => w + r.depth) a = a + (l.map Req.depth).sum := by
  induction l generalizing a with
  | nil => simp
  | cons x xs ih =>
    rw [List.foldl_cons, ih, List.map_cons, List.sum_cons]
    omega

theorem mkSolution_depth_attained (reqs : List Req) (hne : reqs ≠ []) :
    ∃ r ∈ reqs, (mkSolution reqs).depth = r.depth := by
  have hspec := foldl_max_spec (reqs.map Req.depth) 0
  have : reqs.foldl (fun d r => max d r.depth) 0 =
      (reqs.map Req.depth).foldl max 0 := by
    rw [List.foldl_map]
  rcases hspec.2.2 with h | h
  · rcases reqs with _ | ⟨r, rs⟩
    · exact absurd rfl hne
    · exfalso
      have hr : r.depth ≤ (List.map Req.depth (r :: rs)).foldl max 0 :=
        hspec.1 r.depth (by simp)
      have := Req.depth_pos r
      omega
  · rcases List.mem_map.mp h with ⟨r, hr, hrd⟩
    exact ⟨r, hr, by simp only [mkSolution, this, hrd]⟩

theorem mkSolution_depth_bound (reqs : List Req) :
    ∀ r ∈ reqs, r.depth ≤ (mkSolution reqs).depth := by
  intro r hr
  have hspec := foldl_max_spec (reqs.map Req.depth) 0
  have heq : reqs.foldl (fun d r => max d r.depth) 0 =
      (reqs.map Req.depth).foldl max 0 := by
    rw [List.foldl_map]
  simpa only [mkSolution, heq] using
    hspec.1 r.depth (List.mem_map.mpr ⟨r, hr, rfl⟩)

theorem mkSolution_depth_pos (reqs : List Req) (hne : reqs ≠ []) :
    1 ≤ (mkSolution reqs).depth := by
  rcases reqs with _ | ⟨r, rs⟩
  · exact absurd rfl hne
  · exact le_trans (Req.depth_pos r) (mkSolution_depth_bound _ r (by simp))

/-! ### Claim C4 -/

/-- C4 counterexample: for the single-leaf lock `[{item: "a"}]`, the source
computes a solution of weight 1 (the leaf requirement's depth is 1, source
line 3022), whereas the claim's convention — a leaf token with no further
requirements has depth 0, weight is the sum of child depths — predicts
weight 0. -/
theorem minify_leaf_scoring_counterexample :
    (mkSolution (scoreLock [RawNode.leaf "a"])).weight = 1 ∧
    (scoreNode (RawNode.leaf "a")).depth = 1 ∧
    claimC4Weight [RawNode.leaf "a"] = 0 ∧
    (1 : Nat) ≠ 0 := by
  refine ⟨by decide, by decide, by decide, by decide⟩

/-- C4 amended: `minifySolution` scores a candidate sub-solution with
`depth` the maximum of its requirements' depths, `weight` their sum, and
`avg = weight / childCount`, where a *leaf* requirement has depth 1 (not
0) and a compound requirement has depth `1 + ` its own sub-solution's
depth. -/
theorem minifySolution_scoring (lock : List RawNode) (hne : lock ≠ []) :
    (∃ r ∈ scoreLock lock, (mkSolution (scoreLock lock)).depth = r.depth) ∧
    (∀ r ∈ scoreLock lock, r.depth ≤ (mkSolution (scoreLock lock)).depth) ∧
    (mkSolution (scoreLock lock)).weight = ((scoreLock lock).map Req.depth).sum ∧
    (mkSolution (scoreLock lock)).avg =
      (((mkSolution (scoreLock lock)).weight : Nat) : Rat) /
        ((scoreLock lock).length : Rat) ∧
    (∀ it, (scoreNode (RawNode.leaf it)).depth = 1) ∧
    (∀ it locks, (scoreNode (RawNode.node it locks)).depth =
      1 + (reduceLocks initialMin locks).depth) := by
  have hlock : scoreLock lock ≠ [] := by
    rcases lock with _ | ⟨n, ns⟩
    · exact absurd rfl hne
    · rw [scoreLock]
      exact List.cons_ne_nil _ _
  refine ⟨mkSolution_depth_attained _ hlock, mkSolution_depth_bound _, ?_, rfl, ?_, ?_⟩
  · simp only [mkSolution, foldl_add_depth]
    omega
  · intro it
    rw [scoreNode, Req.depth]
  · intro it locks
    rw [scoreNode, Req.depth]

/-- Witness for the amended C4 at the two-node lock
`[{item:"a"}, {item:"b", locks:[[{item:"c"}]]}]`. -/
theorem minifySolution_scoring_witness :
    ([RawNode.leaf "a", RawNode.node "b" [[RawNode.leaf "c"]]] ≠
      ([] : List RawNode)) ∧
    ((∃ r ∈ scoreLock [RawNode.leaf "a", RawNode.node "b" [[RawNode.leaf "c"]]],
      (mkSolution (scoreLock [RawNode.leaf "a",
        RawNode.node "b" [[RawNode.leaf "c"]]])).depth = r.depth) ∧
    (∀ r ∈ scoreLock [RawNode.leaf "a", RawNode.node "b" [[RawNode.leaf "c"]]],
      r.depth ≤ (mkSolution (scoreLock [RawNode.leaf "a",
        RawNode.node "b" [[RawNode.leaf "c"]]])).depth) ∧
    (mkSolution (scoreLock [RawNode.leaf "a",
        RawNode.node "b" [[RawNode.leaf "c"]]])).weight =
      ((scoreLock [RawNode.leaf "a",
        RawNode.node "b" [[RawNode.leaf "c"]]]).map Req.depth).sum ∧
    (mkSolution (scoreLock [RawNode.leaf "a",
        RawNode.node "b" [[RawNode.leaf "c"]]])).avg =
      (((mkSolution (scoreLock [RawNode.leaf "a",
        RawNode.node "b" [[RawNode.leaf "c"]]])).weight : Nat) : Rat) /
        ((scoreLock [RawNode.leaf "a",
          RawNode.node "b" [[RawNode.leaf "c"]]]).length : Rat) ∧
    (∀ it, (scoreNode (RawNode.leaf it)).depth = 1) ∧
    (∀ it locks, (scoreNode (RawNode.node it locks)).depth =
      1 + (reduceLocks initialMin locks).depth)) :=
  ⟨by simp, minifySolution_scoring _ (by simp)⟩

/-! ### Claim C5: the selection order -/

theorem scoreLexLt_irrefl (s : Solution) : ¬ scoreLexLt s s := by
  unfold scoreLexLt
  simp

theorem scoreLexLt_trans {a b c : Solution} (h1 : scoreLexLt a b)
    (h2 : scoreLexLt b c) : scoreLexLt a c := by
  unfold scoreLexLt at h1 h2 ⊢
  rcases h1 with h1 | ⟨e1, h1⟩ | ⟨e1, f1, h1⟩ <;>
    rcases h2 with h2 | ⟨e2, h2⟩ | ⟨e2, f2, h2⟩
  · exact Or.inl (h1.trans h2)
  · exact Or.inl (by rw [← e2]; exact h1)
  · exact Or.inl (by rw [← e2]; exact h1)
  · exact Or.inl (by rw [e1]; exact h2)
  · exact Or.inr (Or.inl ⟨e1.trans e2, h1.trans h2⟩)
  · exact Or.inr (Or.inl ⟨e1.trans e2, by rw [← f2]; exact h1⟩)
  · exact Or.inl (by rw [e1]; exact h2)
  · exact Or.inr (Or.inl ⟨e1.trans e2, by rw [f1]; exact h2⟩)
  · exact Or.inr (Or.inr ⟨e1.trans e2, f1.trans f2, h1.trans h2⟩)

theorem scoreLexLt_trichotomy (a b : Solution) :
    scoreLexLt a b ∨ scoreLexLt b a ∨
      (a.depth = b.depth ∧ a.weight = b.weight ∧ a.avg = b.avg) := by
  unfold scoreLexLt
  rcases lt_trichotomy a.depth b.depth with h | h | h
  · exact Or.inl (Or.inl h)
  · rcases lt_trichotomy a.weight b.weight with g | g | g
    · exact Or.inl (Or.inr (Or.inl ⟨h, g⟩))
    · rcases lt_trichotomy a.avg b.avg with f | f | f
      · exact Or.inl (Or.inr (Or.inr ⟨h, g, f⟩))
      · exact Or.inr (Or.inr ⟨h, g, f⟩)
      · exact Or.inr (Or.inl (Or.inr (Or.inr ⟨h.symm, g.symm, f⟩)))
    · exact Or.inr (Or.inl (Or.inr (Or.inl ⟨h.symm, g⟩)))
  · exact Or.inr (Or.inl (Or.inl h))

theorem scoreLexLt_of_eq_left {a b c : Solution}
    (e : a.depth = b.depth ∧ a.weight = b.weight ∧ a.avg = b.avg)
    (h : scoreLexLt b c) : scoreLexLt a c := by
  unfold scoreLexLt at h ⊢
  rw [e.1, e.2.1, e.2.2]
  exact h

theorem scoreLexLt_of_eq_right {a b c : Solution}
    (e : a.depth = b.depth ∧ a.weight = b.weight ∧ a.avg = b.avg)
    (h : scoreLexLt c b) : scoreLexLt c a := by
  unfold scoreLexLt at h ⊢
  rw [e.1, e.2.1, e.2.2]
  exact h

theorem minifySelect_of_pos {m : Solution} (s : Solution) (hm : 1 ≤ m.depth) :
    minifySelect m s = if scoreLexLt s m then s else m := by
  unfold minifySelect scoreLexLt
  have h0 : ¬ m.depth = 0 := by omega
  simp [h0]

theorem get_map_cons {α β : Type} (g : α → β) (x : α) (l : List α) (i : Nat)
    (h1 : i < (g x :: l.map g).length) (h2 : i < (x :: l).length) :
    (g x :: l.map g).get ⟨i, h1⟩ = g ((x :: l).get ⟨i, h2⟩) := by
  rcases i with _ | i
  · rfl
  · simp only [List.get_eq_getElem, List.getElem_cons_succ, List.getElem_map]

theorem foldl_minifySelect_first_min (sols : List Solution) (c : Solution)
    (hc : 1 ≤ c.depth) (hs : ∀ s ∈ sols, 1 ≤ s.depth) :
    ∃ i, ∃ hi : i < (c :: sols).length,
      sols.foldl minifySelect c = (c :: sols).get ⟨i, hi⟩ ∧
      (∀ s ∈ c :: sols, ¬ scoreLexLt s (sols.foldl minifySelect c)) ∧
      ∀ j, ∀ hj : j < i, scoreLexLt (sols.foldl minifySelect c)
        ((c :: sols).get ⟨j, by omega⟩) := by
  induction sols generalizing c with
  | nil =>
    refine ⟨0, by simp, rfl, ?_, by omega⟩
    intro s hsm
    rcases List.mem_cons.mp hsm with rfl | h
    · exact scoreLexLt_irrefl s
    · exact absurd h (List.not_mem_nil s)
  | cons s ss ih =>
    rw [List.foldl_cons, minifySelect_of_pos s hc]
    by_cases hlt : scoreLexLt s c
    · rw [if_pos hlt]
      obtain ⟨i, hi, heq, hmin, hfirst⟩ :=
        ih s (hs s (by simp)) (fun x hx => hs x (by simp [hx]))
      refine ⟨i + 1, by simpa using Nat.succ_lt_succ hi, heq, ?_, ?_⟩
      · intro x hx
        rcases List.mem_cons.mp hx with rfl | hx
        · -- x = c: a lex-smaller c would contradict s < c and result ≤ s
          intro hcon
          rw [heq] at hcon
          have hns : ¬ scoreLexLt s ((s :: ss).get ⟨i, hi⟩) := by
            rw [← heq]
            exact hmin s (by simp)
          have hcs : scoreLexLt x s := by
            rcases scoreLexLt_trichotomy s ((s :: ss).get ⟨i, hi⟩) with h | h | h
            · exact absurd h hns
            · exact scoreLexLt_trans hcon h
            · exact scoreLexLt_of_eq_right h hcon
          exact scoreLexLt_irrefl s (scoreLexLt_trans hlt hcs)
        · exact hmin x hx
      · intro j hj
        rcases j with _ | j
        · -- j = 0: the result is lex-below c
          rw [heq]
          have hns : ¬ scoreLexLt s ((s :: ss).get ⟨i, hi⟩) := by
            rw [← heq]
            exact hmin s (by simp)
          show scoreLexLt ((s :: ss).get ⟨i, hi⟩) c
          rcases scoreLexLt_trichotomy s ((s :: ss).get ⟨i, hi⟩) with h | h | h
          · exact absurd h hns
          · exact scoreLexLt_trans h hlt
          · exact scoreLexLt_of_eq_left
              ⟨h.1.symm, h.2.1.symm, h.2.2.symm⟩ hlt
        · exact hfirst j (by omega)
    · rw [if_neg hlt]
      obtain ⟨i, hi, heq, hmin, hfirst⟩ :=
        ih c hc (fun x hx => hs x (by simp [hx]))
      have hresc : ¬ scoreLexLt c (ss.foldl minifySelect c) := hmin c (by simp)
      have hs_not : ¬ scoreLexLt s (ss.foldl minifySelect c) := by
        intro hcon
        have : scoreLexLt s c := by
          rcases scoreLexLt_trichotomy c (ss.foldl minifySelect c) with h | h | h
          · exact absurd h hresc
          · exact scoreLexLt_trans hcon h
          · exact scoreLexLt_of_eq_right h hcon
        exact hlt this
      rcases i with _ | i
      · refine ⟨0, by simp, heq, ?_, by omega⟩
        intro x hx
        rcases List.mem_cons.mp hx with rfl | hx
        · exact hmin x (by simp)
        rcases List.mem_cons.mp hx with rfl | hx
        · exact hs_not
        · exact hmin x (by simp [hx])
      · refine ⟨i + 2, by simpa using Nat.succ_lt_succ hi, heq, ?_, ?_⟩
        · intro x hx
          rcases List.mem_cons.mp hx with rfl | hx
          · exact hmin x (by simp)
          rcases List.mem_cons.mp hx with rfl | hx
          · exact hs_not
          · exact hmin x (by simp [hx])
        · intro j hj
          rcases j with _ | j
          · exact hfirst 0 (by omega)
          rcases j with _ | j
          · -- j = 1: the result is lex-below s because it is below c ≤ s
            have h0 : scoreLexLt (ss.foldl minifySelect c)
                ((c :: ss).get ⟨0, by simp⟩) := hfirst 0 (by omega)
            show scoreLexLt (ss.foldl minifySelect c) s
            rcases scoreLexLt_trichotomy s c with h | h | h
            · exact absurd h hlt
            · exact scoreLexLt_trans h0 h
            · exact scoreLexLt_of_eq_right h h0
          · exact hfirst (j + 1) (by omega)

/-- C5: among the sibling candidate sub-solutions of a requirement's
locks, `minifySolution` selects the first candidate (in encounter order)
that is minimal in the ascending lexicographic order on
`(depth, weight, avg)`: the result is candidate `i`, no candidate is
lex-smaller than it, and every earlier candidate is lex-greater (so a tie
on all three components keeps the earlier one). -/
theorem minify_selects_first_lex_min (locks : List (List RawNode))
    (hne : locks ≠ []) (hwf : ∀ l ∈ locks, l ≠ []) :
    ∃ i, ∃ hi : i < locks.length,
      reduceLocks initialMin locks =
        mkSolution (scoreLock (locks.get ⟨i, hi⟩)) ∧
      (∀ l ∈ locks, ¬ scoreLexLt (mkSolution (scoreLock l))
        (reduceLocks initialMin locks)) ∧
      ∀ j, ∀ hj : j < i, scoreLexLt (reduceLocks initialMin locks)
        (mkSolution (scoreLock (locks.get ⟨j, by omega⟩))) := by
  rcases locks with _ | ⟨lock, rest⟩
  · exact absurd rfl hne
  have hcand : ∀ l ∈ lock :: rest, 1 ≤ (mkSolution (scoreLock l)).depth := by
    intro l hl
    apply mkSolution_depth_pos
    rw [scoreLock_eq_map]
    simpa using hwf l hl
  have hunfold : reduceLocks initialMin (lock :: rest) =
      (rest.map (fun l => mkSolution (scoreLock l))).foldl minifySelect
        (mkSolution (scoreLock lock)) := by
    rw [reduceLocks, minifySelect_initial, reduceLocks_eq_foldl, List.foldl_map]
    rfl
  obtain ⟨i, hi, heq, hmin, hfirst⟩ :=
    foldl_minifySelect_first_min (rest.map (fun l => mkSolution (scoreLock l)))
      (mkSolution (scoreLock lock)) (hcand lock (by simp))
      (by
        intro x hx
        rcases List.mem_map.mp hx with ⟨l, hl, rfl⟩
        exact hcand l (by simp [hl]))
  have hlist : mkSolution (scoreLock lock) ::
      rest.map (fun l => mkSolution (scoreLock l)) =
      (lock :: rest).map (fun l => mkSolution (scoreLock l)) := rfl
  have hilen : i < (lock :: rest).length := by
    simpa using hi
  refine ⟨i, hilen, ?_, ?_, ?_⟩
  · rw [hunfold, heq]
    exact get_map_cons _ lock rest i hi hilen
  · intro l hl
    rw [hunfold]
    exact hmin (mkSolution (scoreLock l)) (by
      rw [hlist]
      exact List.mem_map.mpr ⟨l, hl, rfl⟩)
  · intro j hj
    have hjlen : j < (mkSolution (scoreLock lock) ::
        rest.map (fun l => mkSolution (scoreLock l))).length := by
      simp only [List.length_cons, List.length_map]
      simp only [List.length_cons] at hilen
      omega
    have hge := get_map_cons (fun l => mkSolution (scoreLock l)) lock rest j
      hjlen (by simp only [List.length_cons] at hilen ⊢; omega)
    have hthis := hfirst j hj
    rw [hge] at hthis
    rw [hunfold]
    exact hthis

/-- Witness for C5 at the two-lock list `[[{item:"a"}], [{item:"b"}]]`
(two candidates tied on all three score components: the earlier one is
kept). -/
theorem minify_selects_first_lex_min_witness :
    (([[RawNode.leaf "a"], [RawNode.leaf "b"]] : List (List RawNode)) ≠ []) ∧
    (∃ i, ∃ hi : i < ([[RawNode.leaf "a"], [RawNode.leaf "b"]] :
        List (List RawNode)).length,
      reduceLocks initialMin [[RawNode.leaf "a"], [RawNode.leaf "b"]] =
        mkSolution (scoreLock (([[RawNode.leaf "a"], [RawNode.leaf "b"]] :
          List (List RawNode)).get ⟨i, hi⟩)) ∧
      (∀ l ∈ ([[RawNode.leaf "a"], [RawNode.leaf "b"]] : List (List RawNode)),
        ¬ scoreLexLt (mkSolution (scoreLock l))
          (reduceLocks initialMin [[RawNode.leaf "a"], [RawNode.leaf "b"]])) ∧
      ∀ j, ∀ hj : j < i, scoreLexLt
        (reduceLocks initialMin [[RawNode.leaf "a"], [RawNode.leaf "b"]])
        (mkSolution (scoreLock (([[RawNode.leaf "a"], [RawNode.leaf "b"]] :
          List (List RawNode)).get ⟨j, by omega⟩)))) :=
  ⟨by simp, minify_selects_first_lex_min _ (by simp) (by simp)⟩

/-! ### Claim C10 -/

/-- C10: for every simplified proof node, the collapsed tree has no node
whose `solution` list has exactly one element, every node's `items` list
is nonempty, and the collapsed tree lists exactly the input tree's tokens
in their original preorder (acquisition) order — so single-alternative
chains never survive collapsing and merging preserves token order. -/
theorem collapseSolution_invariants (n : SimpleNode) :
    noSingletonB (collapseSolution n) = true ∧
    itemsNonemptyB (collapseSolution n) = true ∧
    collapsedItems (collapseSolution n) = simpleItems n :=
  collapse_inv_node n

/-! ### Claim C8 -/

/-- C8: a rendered compound node prints its token names joined by
`" < "`, with a `"^ "` marker exactly on nodes reached as alternatives,
and nested alternatives are indented past the width of the parent's token
list; the minimized tree `{items:["A","B"], solution:[{items:["C"]}]}`
renders as exactly the two lines `"A < B"` and `"    ^ C"` (the `^`
aligned under the point where the parent chain ends).  Rendering is a
pure function of the tree, so repeated invocations are byte-identical. -/
theorem renderNode_rules :
    (∀ (f : String → String) (lvl : Nat) (sub : Bool) (node : Collapsed),
      (renderNode f lvl sub node).head? =
        some (indentStr lvl ++ (if sub then "^ " else "") ++
          jsJoin " < " (node.items.map f))) ∧
    renderNode (fun s => s) 0 false
        (Collapsed.branch ["A", "B"] [Collapsed.tip ["C"]]) =
      ["A < B", "    ^ C"] := by
  constructor
  · intro f lvl sub node
    cases node <;> simp [renderNode, Collapsed.items]
  · decide

/-! ### Claim C9 -/

/-- C9: for every nonnegative core count the derived worker count is
`max (3 * cores / 4) 1` and in particular at least 1. -/
theorem workerCountFromCores_pos (cores : Nat) :
    workerCountFromCores cores = max (3 * cores / 4) 1 ∧
    1 ≤ workerCountFromCores cores :=
  ⟨rfl, le_max_right _ _⟩

end SotN
